import Mathlib

/-!
Verification of the A* shortest-path engine in a_star.c.

The graph data model, the cost bookkeeping and the search loop are translated
directly from the C source.  The C file relies on a priority queue (`queue_t`)
and a membership set (`set_t`) declared in util.h, which is not part of the
sources; those two containers are modelled from the specification (sections
4.3 and 4.4), which fixes their observable contract: the queue stores
(node id, priority) entries with insert / extract-min / membership /
decrease-priority, the set stores node ids with add / membership.

Coordinates and costs are C doubles; they are modelled by real numbers, so
`calculate_distance` is the exact Euclidean distance.
-/

namespace AStar

/-- A graph node, translated from `node_t`: identifier, city name,
coordinates, adjacency list, parent pointer (modelled by the parent's node
id) and the three mutable cost fields.  `node_create` zero-initialises the
costs and leaves the parent NULL. -/
structure node_t where
  node_num : Nat
  city_name : String
  latitude : Real
  longitude : Real
  neighbors : List Nat
  parent : Option Nat
  f_cost : Real
  g_cost : Real
  h_cost : Real

instance : Inhabited node_t :=
  ⟨⟨0, default, 0, 0, [], none, 0, 0, 0⟩⟩

/-- The graph, translated from `graph_t`: a node count and the node array.
In C the array holds pointers that start NULL and are filled by
`node_create`; reading an unfilled slot is undefined behaviour, and the model
returns a default empty node there. -/
structure graph_t where
  num_nodes : Nat
  nodes : List node_t

/-- Read the node in slot `i` (C: `graph->nodes[i]`). -/
def nd (G : graph_t) (i : Nat) : node_t := G.nodes.getD i default

/-- Overwrite the node in slot `i`; out-of-range writes (undefined behaviour
in C) leave the model unchanged. -/
def setNd (G : graph_t) (i : Nat) (x : node_t) : graph_t :=
  { G with nodes := G.nodes.set i x }

/-- `insert`, translated from a_star.c lines 44-54: append a value at the end
of an adjacency list. -/
def insert (l : List Nat) (v : Nat) : List Nat :=
  match l with
  | [] => [v]
  | x :: t => x :: insert t v

/-- `calculate_distance`, translated from a_star.c lines 87-92: planar
Euclidean distance from the stored coordinates. -/
noncomputable def calculate_distance (G : graph_t) (n1 n2 : Nat) : Real :=
  Real.sqrt (((nd G n1).longitude - (nd G n2).longitude) ^ 2 +
    ((nd G n1).latitude - (nd G n2).latitude) ^ 2)

/-- `calculate_g_cost`, translated from a_star.c lines 102-104. -/
noncomputable def calculate_g_cost (G : graph_t) (curr target : Nat) : Real :=
  (nd G curr).g_cost + calculate_distance G curr target

/-- `fcost`, translated from a_star.c lines 111-113. -/
def fcost (G : graph_t) (curr : Nat) : Real := (nd G curr).f_cost

/-- `gcost`, translated from a_star.c lines 120-122. -/
def gcost (G : graph_t) (curr : Nat) : Real := (nd G curr).g_cost

/-- `set_h_cost`, translated from a_star.c lines 130-132. -/
noncomputable def set_h_cost (G : graph_t) (curr e : Nat) : graph_t :=
  setNd G curr { nd G curr with h_cost := calculate_distance G curr e }

/-- `set_f_cost`, translated from a_star.c lines 139-142. -/
def set_f_cost (G : graph_t) (curr : Nat) : graph_t :=
  setNd G curr
    { nd G curr with f_cost := (nd G curr).g_cost + (nd G curr).h_cost }

/-- The inline assignment `graph->nodes[neighbor]->g_cost = potential_g`
(a_star.c line 271). -/
def set_g_cost (G : graph_t) (curr : Nat) (v : Real) : graph_t :=
  setNd G curr { nd G curr with g_cost := v }

/-- The inline assignment `graph->nodes[neighbor]->parent =
graph->nodes[curr]` (a_star.c line 273). -/
def set_parent (G : graph_t) (curr p : Nat) : graph_t :=
  setNd G curr { nd G curr with parent := some p }

/-- `graph_create`, translated from a_star.c lines 149-159 (slots start
unfilled). -/
def graph_create (n : Nat) : graph_t := ⟨n, List.replicate n default⟩

/-- `node_create`, translated from a_star.c lines 170-190. -/
def node_create (G : graph_t) (node_num : Nat) (city_name : String)
    (latitude longitude : Real) : graph_t :=
  setNd G node_num ⟨node_num, city_name, latitude, longitude, [], none, 0, 0, 0⟩

/-- `add_edge`, translated from a_star.c lines 199-204: append each endpoint
to the other endpoint's adjacency list. -/
def add_edge (G : graph_t) (a b : Nat) : graph_t :=
  let G1 := setNd G a { nd G a with neighbors := insert (nd G a).neighbors b }
  setNd G1 b { nd G1 b with neighbors := insert (nd G1 b).neighbors a }

/-- Modelled from the spec: the open-set type `queue_t` lives in util.h,
which is not among the sources.  Spec section 4.3: entries are
(node id, priority) pairs. -/
abbrev queue_t : Type := List (Nat × Real)

/-- Modelled from the spec: `queue_create` yields an empty open set. -/
def queue_create : queue_t := []

/-- Modelled from the spec (section 4.3): `insert(id, priority)` adds a new
live entry; the search only calls it for ids that are not present. -/
def queue_add (q : queue_t) (v : Nat) (p : Real) : queue_t := q ++ [(v, p)]

/-- Modelled from the spec (section 4.3): emptiness test. -/
def queue_is_empty (q : queue_t) : Bool := q.isEmpty

/-- Modelled from the spec (section 4.3): membership test by node id. -/
def queue_query (q : queue_t) (v : Nat) : Bool := q.any (fun e => e.1 == v)

/-- Helper for extract-min: fold over the remaining entries keeping the entry
with the smallest priority, the earliest one on ties (the spec leaves the
tie-break implementation-defined). -/
noncomputable def queue_min (best : Nat × Real) : List (Nat × Real) → Nat × Real
  | [] => best
  | x :: t => queue_min (if x.2 < best.2 then x else best) t

/-- Modelled from the spec (section 4.3): extract-min removes and returns the
id with the smallest priority; calling it on an empty queue is outside the
contract and returns a junk id. -/
noncomputable def queue_remove (q : queue_t) : Nat × queue_t :=
  match q with
  | [] => (0, [])
  | x :: t =>
    ((queue_min x t).1,
      List.eraseP (fun e => e.1 == (queue_min x t).1) (x :: t))

/-- Modelled from the spec (section 4.3): decrease-priority rewrites the
stored priority of the entry for the given id. -/
def queue_change_priority (q : queue_t) (v : Nat) (p : Real) : queue_t :=
  q.map (fun e => if e.1 == v then (v, p) else e)

/-- Modelled from the spec: the closed-set type `set_t` lives in util.h,
which is not among the sources.  Spec section 4.4: add and membership with
plain set semantics. -/
abbrev set_t : Type := List Nat

/-- Modelled from the spec: `set_create` yields an empty closed set. -/
def set_create : set_t := []

/-- Modelled from the spec (section 4.4): add a node id. -/
def set_add (s : set_t) (v : Nat) : set_t := if v ∈ s then s else v :: s

/-- Modelled from the spec (section 4.4): membership test. -/
def set_query (s : set_t) (v : Nat) : Bool := s.contains v

/-- The state of one `a_star` invocation: the graph with its mutable cost
fields, the open set, the closed set, and whether the loop was left through
the `curr == end_node_num` break. -/
structure AState where
  g : graph_t
  open_set : queue_t
  cs : set_t
  found : Bool

/-- One iteration of the neighbor loop of `a_star` (a_star.c lines 255-279)
for a single adjacency-list entry: recompute the neighbor's h-cost, compute
the tentative g-cost through `curr`, apply the two skip conditions, and
otherwise relax the neighbor and insert it or improve its priority. -/
noncomputable def relax_neighbor (e curr : Nat) (S : AState) (nb : Nat) : AState :=
  let G1 := set_h_cost S.g nb e
  let pg := calculate_g_cost G1 curr nb
  if queue_query S.open_set nb = true ∧ gcost G1 nb ≤ pg then
    { S with g := G1 }
  else if set_query S.cs nb = true then
    { S with g := G1 }
  else
    let G4 := set_parent (set_f_cost (set_g_cost G1 nb pg) nb) nb curr
    if queue_query S.open_set nb = true then
      { S with g := G4,
               open_set := queue_change_priority S.open_set nb (fcost G4 nb) }
    else
      { S with g := G4, open_set := queue_add S.open_set nb (fcost G4 nb) }

/-- The whole neighbor loop, run over the adjacency list of `curr`. -/
noncomputable def relax_all (e curr : Nat) (S : AState) : List Nat → AState
  | [] => S
  | nb :: t => relax_all e curr (relax_neighbor e curr S nb) t

/-- One iteration of the while loop of `a_star` (a_star.c lines 245-281):
extract the minimum-priority node, stop if it is the goal (before adding it
to the closed set), otherwise relax its neighbors and close it. -/
noncomputable def a_star_step (e : Nat) (S : AState) : AState :=
  if (queue_remove S.open_set).1 = e then
    { S with open_set := (queue_remove S.open_set).2, found := true }
  else
    let S2 := relax_all e (queue_remove S.open_set).1
      { S with open_set := (queue_remove S.open_set).2 }
      (nd S.g (queue_remove S.open_set).1).neighbors
    { S2 with cs := set_add S2.cs (queue_remove S.open_set).1 }

/-- The while loop of `a_star`, with explicit fuel.  The C loop runs until
the open set is empty or the goal has been dequeued; the fuel only bounds the
number of iterations of the model, and lemmas below show it is never
exhausted on graphs whose adjacency lists mention valid node ids. -/
noncomputable def a_star_loop (e : Nat) : Nat → AState → AState
  | 0, S => S
  | fuel + 1, S =>
    if S.found = true ∨ queue_is_empty S.open_set = true then S
    else a_star_loop e fuel (a_star_step e S)

/-- The initialisation of `a_star` (a_star.c lines 236-243): fresh open and
closed sets, h- and f-cost of the start node, start node enqueued. -/
noncomputable def initState (G : graph_t) (s e : Nat) : AState :=
  ⟨set_f_cost (set_h_cost G s e) s,
    queue_add queue_create s (fcost (set_f_cost (set_h_cost G s e) s) s),
    set_create, false⟩

/-- The state in which the while loop of `a_star` terminates.  For graphs
whose adjacency lists mention only valid node ids, `(num_nodes + 1)^2`
iterations always suffice (proved below), so that much fuel makes the model
agree with the unbounded C loop. -/
noncomputable def a_star_run (G : graph_t) (s e : Nat) : AState :=
  a_star_loop e ((G.num_nodes + 1) ^ 2) (initState G s e)

/-- `a_star`, translated from a_star.c lines 235-287: run the search loop,
then return -1 if the goal's g-cost still reads 0, and the goal's f-cost
otherwise. -/
noncomputable def a_star (G : graph_t) (s e : Nat) : Real :=
  if gcost (a_star_run G s e).g e = 0 then -1
  else fcost (a_star_run G s e).g e

/-- The node ids currently holding a live open-set entry. -/
def openIds (q : queue_t) : List Nat := q.map Prod.fst

/-- A well-formed graph: the node array has the announced length and every
adjacency list mentions only valid node ids (spec section 3). -/
def WF (G : graph_t) : Prop :=
  G.nodes.length = G.num_nodes ∧
    ∀ i, ∀ v ∈ (nd G i).neighbors, v < G.num_nodes

/-- Fresh (zero-initialised) search state, as left by `node_create`: all
cost fields zero and no parent pointers. -/
def Fresh (G : graph_t) : Prop :=
  ∀ i, (nd G i).g_cost = 0 ∧ (nd G i).h_cost = 0 ∧ (nd G i).f_cost = 0 ∧
    (nd G i).parent = none

/-- No node lists itself as its own neighbor. -/
def NoSelfLoop (G : graph_t) : Prop := ∀ i, i ∉ (nd G i).neighbors

/-- A state in which the while loop of `a_star` has stopped: the goal was
dequeued, or the open set ran dry. -/
def Terminal (S : AState) : Prop := S.found = true ∨ S.open_set = []

/-- `is_walk G u l tgt` states that successively stepping through the node
ids in `l`, starting from `u`, follows adjacency-list entries and ends at
`tgt`. -/
def is_walk (G : graph_t) : Nat → List Nat → Nat → Prop
  | u, [], tgt => u = tgt
  | u, v :: t, tgt => v ∈ (nd G u).neighbors ∧ is_walk G v t tgt

/-- The total edge weight of a walk, each edge weighted by the Euclidean
distance between its endpoints. -/
noncomputable def walk_weight (G : graph_t) : Nat → List Nat → Real
  | _, [] => 0
  | u, v :: t => calculate_distance G u v + walk_weight G v t

/-- Reachability along adjacency lists. -/
def Reach (G : graph_t) (s v : Nat) : Prop := ∃ l, is_walk G s l v

/-- Two graphs with identical structure: same node count, same array length,
and pointwise the same coordinates and adjacency lists. -/
def StructEq (G' G : graph_t) : Prop :=
  G'.num_nodes = G.num_nodes ∧ G'.nodes.length = G.nodes.length ∧
    ∀ i, (nd G' i).latitude = (nd G i).latitude ∧
      (nd G' i).longitude = (nd G i).longitude ∧
      (nd G' i).neighbors = (nd G i).neighbors

/-- The state after `k` iterations of the while loop started on graph `G`
with the given start and goal. -/
noncomputable def runState (G : graph_t) (s e k : Nat) : AState :=
  a_star_loop e k (initState G s e)

/-- A single isolated node at the origin. -/
def exGraph1 : graph_t := node_create (graph_create 1) 0 "A" 0 0

/-- Two nodes at (0,0) and (3,4), no edges yet. -/
def exGraphTwo : graph_t :=
  node_create (node_create (graph_create 2) 0 "A" 0 0) 1 "B" 3 4

/-- Two nodes at (0,0) and (3,4) joined by one edge (distance 5). -/
def exGraph45 : graph_t := add_edge exGraphTwo 0 1

/-- Three isolated nodes, no edges (the spec's unreachable scenario). -/
def exGraph3 : graph_t :=
  node_create (node_create (node_create (graph_create 3)
    0 "A" 0 0) 1 "B" 1 0) 2 "C" 2 0

/-- Two distinct nodes stored at identical coordinates, joined by an edge of
Euclidean length 0. -/
def exGraph2z : graph_t :=
  add_edge (node_create (node_create (graph_create 2) 0 "A" 0 0) 1 "B" 0 0) 0 1

/-- A 3-4-5 right triangle path 0 - 1 - 2 where node 0 also carries a
self-loop (stored twice by add_edge): nodes at (0,0), (3,4) and (6,0), edges
0-0, 0-1 and 1-2.  All priority comparisons during a search from 0 to 2 are
strict, so its behavior does not depend on how extract-min breaks ties. -/
def exGraphLoop : graph_t :=
  add_edge (add_edge (add_edge (node_create (node_create (node_create
    (graph_create 3) 0 "A" 0 0) 1 "B" 3 4) 2 "C" 6 0) 0 0) 0 1) 1 2

/-- The unit square: nodes at (0,0), (1,0), (1,1), (0,1) joined in a 4-cycle
0-1, 1-2, 2-3, 3-0. -/
def exGraph8 : graph_t :=
  add_edge (add_edge (add_edge (add_edge
    (node_create (node_create (node_create (node_create (graph_create 4)
      0 "A" 0 0) 1 "B" 1 0) 2 "C" 1 1) 3 "D" 0 1)
    0 1) 1 2) 2 3) 3 0

/-- The search-loop invariant, relative to the original graph `G`, the start
`s` and the goal `e`.  It holds at the top of every loop iteration and is the
basis of all correctness claims: the run never changes the graph structure;
open-set ids are unique and, together with the closed ids, valid and
reachable; every recorded g-cost is the weight of an actual walk from the
start; nodes the search never touched keep g-cost 0; the goal's f-cost always
equals its g-cost (its heuristic is the distance to itself, 0); open-set
priorities are the f-costs, which split into g-cost plus heuristic; closed
g-costs are optimal; every neighbor of a closed node is closed or open with a
relaxed g-cost; the start is never lost and keeps g-cost 0; the goal is never
closed; and when the loop has broken on the goal, the goal's recorded g-cost
is the minimum walk weight. -/
structure Inv (G : graph_t) (s e : Nat) (S : AState) : Prop where
  structEq : StructEq S.g G
  nodup : (openIds S.open_set).Nodup
  validOpen : ∀ v ∈ openIds S.open_set, v < G.num_nodes
  validCs : ∀ v ∈ S.cs, v < G.num_nodes
  csNodup : S.cs.Nodup
  reachOpen : ∀ v ∈ openIds S.open_set, Reach G s v
  reachCs : ∀ v ∈ S.cs, Reach G s v
  gWalk : ∀ v, (v ∈ openIds S.open_set ∨ v ∈ S.cs) →
    ∃ l, is_walk G s l v ∧ walk_weight G s l = gcost S.g v
  geWalk : gcost S.g e ≠ 0 →
    ∃ l, is_walk G s l e ∧ walk_weight G s l = gcost S.g e
  gUnreached : ∀ v, ¬ Reach G s v → gcost S.g v = 0
  feEq : fcost S.g e = gcost S.g e
  heOpen : e ∈ openIds S.open_set → (nd S.g e).h_cost = 0
  heFound : S.found = true → (nd S.g e).h_cost = 0
  prio : ∀ en ∈ S.open_set, en.2 = fcost S.g en.1 ∧
    fcost S.g en.1 = gcost S.g en.1 + calculate_distance G en.1 e
  csMin : ∀ u ∈ S.cs, ∀ l, is_walk G s l u → gcost S.g u ≤ walk_weight G s l
  frontier : S.found = false → ∀ u ∈ S.cs, ∀ v ∈ (nd G u).neighbors,
    v ∈ S.cs ∨ (v ∈ openIds S.open_set ∧
      gcost S.g v ≤ gcost S.g u + calculate_distance G u v)
  startMem : S.found = false → (s ∈ openIds S.open_set ∨ s ∈ S.cs)
  gsZero : gcost S.g s = 0
  eNotCs : e ∉ S.cs
  foundMin : S.found = true →
    (∀ l, is_walk G s l e → gcost S.g e ≤ walk_weight G s l) ∧
      (∃ l, is_walk G s l e ∧ walk_weight G s l = gcost S.g e)

/-- The invariant maintained while the neighbor list of the freshly
extracted node `x` is being relaxed.  `gx` pins the (unchanging) g-cost of
`x`, whose open-set entry has already been removed and which is not yet
closed. -/
structure RInv (G : graph_t) (s e x : Nat) (gx : Real) (S : AState) : Prop where
  structEq : StructEq S.g G
  nodup : (openIds S.open_set).Nodup
  validOpen : ∀ v ∈ openIds S.open_set, v < G.num_nodes
  validCs : ∀ v ∈ S.cs, v < G.num_nodes
  csNodup : S.cs.Nodup
  reachOpen : ∀ v ∈ openIds S.open_set, Reach G s v
  reachCs : ∀ v ∈ S.cs, Reach G s v
  gWalk : ∀ v, (v ∈ openIds S.open_set ∨ v ∈ S.cs) →
    ∃ l, is_walk G s l v ∧ walk_weight G s l = gcost S.g v
  geWalk : gcost S.g e ≠ 0 →
    ∃ l, is_walk G s l e ∧ walk_weight G s l = gcost S.g e
  gUnreached : ∀ v, ¬ Reach G s v → gcost S.g v = 0
  feEq : fcost S.g e = gcost S.g e
  heOpen : e ∈ openIds S.open_set → (nd S.g e).h_cost = 0
  heFound : S.found = true → (nd S.g e).h_cost = 0
  prio : ∀ en ∈ S.open_set, en.2 = fcost S.g en.1 ∧
    fcost S.g en.1 = gcost S.g en.1 + calculate_distance G en.1 e
  csMin : ∀ u ∈ S.cs, ∀ l, is_walk G s l u → gcost S.g u ≤ walk_weight G s l
  frontierMid : ∀ u ∈ S.cs, ∀ v ∈ (nd G u).neighbors,
    v ∈ S.cs ∨ v = x ∨ (v ∈ openIds S.open_set ∧
      gcost S.g v ≤ gcost S.g u + calculate_distance G u v)
  startMemMid : s ∈ openIds S.open_set ∨ s ∈ S.cs ∨ s = x
  gsZero : gcost S.g s = 0
  eNotCs : e ∉ S.cs
  foundFalse : S.found = false
  xReach : Reach G s x
  xValid : x < G.num_nodes
  xG : gcost S.g x = gx
  xWalk : ∃ l, is_walk G s l x ∧ walk_weight G s l = gx
  xMin : ∀ l, is_walk G s l x → gx ≤ walk_weight G s l

/-- The property established for each already-processed neighbor `v` of the
extracted node `x` with pinned g-cost `gx`: `v` is closed, or it is open
with a g-cost at most `gx` plus the connecting edge weight. -/
def PostClause (G : graph_t) (x : Nat) (gx : Real) (v : Nat) (S : AState) :
    Prop :=
  v ∈ S.cs ∨ (v ∈ openIds S.open_set ∧
    gcost S.g v ≤ gx + calculate_distance G x v)

/-- Termination measure of the search loop: iterations that close a new node
shrink the first summand, iterations that re-extract a stale entry of an
already-closed node shrink the open set without touching the closed set. -/
def loopMeasure (G : graph_t) (S : AState) : Nat :=
  (G.num_nodes - S.cs.length) * (G.num_nodes + 1) + S.open_set.length

end AStar

namespace AStar

/-! Basic algebra of the node array accessors. -/

theorem setNd_num_nodes (G : graph_t) (i : Nat) (x : node_t) :
    (setNd G i x).num_nodes = G.num_nodes := rfl

theorem setNd_length (G : graph_t) (i : Nat) (x : node_t) :
    (setNd G i x).nodes.length = G.nodes.length := List.length_set ..

theorem setNd_of_le {G : graph_t} {i : Nat} (h : G.nodes.length ≤ i)
    (x : node_t) : setNd G i x = G := by
  simp [setNd, List.set_eq_of_length_le h]

theorem nd_setNd (G : graph_t) (i j : Nat) (x : node_t) :
    nd (setNd G i x) j =
      if j = i ∧ i < G.nodes.length then x else nd G j := by
  by_cases hi : i < G.nodes.length
  · by_cases hj : j = i
    · subst hj
      simp [nd, setNd, hi, List.getD_eq_getElem?_getD, List.getElem?_set_self hi]
    · simp [nd, setNd, hj, List.getD_eq_getElem?_getD,
        List.getElem?_set_ne (Ne.symm hj)]
  · rw [setNd_of_le (le_of_not_lt hi)]
    simp [hi]

theorem nd_set_h_cost (G : graph_t) (c e j : Nat) :
    nd (set_h_cost G c e) j =
      if j = c ∧ c < G.nodes.length then
        { nd G c with h_cost := calculate_distance G c e }
      else nd G j := by
  simp [set_h_cost, nd_setNd]

theorem nd_set_f_cost (G : graph_t) (c j : Nat) :
    nd (set_f_cost G c) j =
      if j = c ∧ c < G.nodes.length then
        { nd G c with f_cost := (nd G c).g_cost + (nd G c).h_cost }
      else nd G j := by
  simp [set_f_cost, nd_setNd]

theorem nd_set_g_cost (G : graph_t) (c : Nat) (v : Real) (j : Nat) :
    nd (set_g_cost G c v) j =
      if j = c ∧ c < G.nodes.length then { nd G c with g_cost := v }
      else nd G j := by
  simp [set_g_cost, nd_setNd]

theorem nd_set_parent (G : graph_t) (c p j : Nat) :
    nd (set_parent G c p) j =
      if j = c ∧ c < G.nodes.length then { nd G c with parent := some p }
      else nd G j := by
  simp [set_parent, nd_setNd]

theorem set_h_cost_num_nodes (G : graph_t) (c e : Nat) :
    (set_h_cost G c e).num_nodes = G.num_nodes := rfl

theorem set_h_cost_length (G : graph_t) (c e : Nat) :
    (set_h_cost G c e).nodes.length = G.nodes.length := List.length_set ..

theorem set_f_cost_num_nodes (G : graph_t) (c : Nat) :
    (set_f_cost G c).num_nodes = G.num_nodes := rfl

theorem set_f_cost_length (G : graph_t) (c : Nat) :
    (set_f_cost G c).nodes.length = G.nodes.length := List.length_set ..

theorem set_g_cost_num_nodes (G : graph_t) (c : Nat) (v : Real) :
    (set_g_cost G c v).num_nodes = G.num_nodes := rfl

theorem set_g_cost_length (G : graph_t) (c : Nat) (v : Real) :
    (set_g_cost G c v).nodes.length = G.nodes.length := List.length_set ..

theorem set_parent_num_nodes (G : graph_t) (c p : Nat) :
    (set_parent G c p).num_nodes = G.num_nodes := rfl

theorem set_parent_length (G : graph_t) (c p : Nat) :
    (set_parent G c p).nodes.length = G.nodes.length := List.length_set ..

/-! The cost setters leave the graph structure (node count, coordinates and
adjacency lists) untouched; all geometric data can therefore be read off the
original graph throughout a search run. -/

theorem StructEq.refl (G : graph_t) : StructEq G G :=
  ⟨Eq.refl _, Eq.refl _, fun _ => ⟨Eq.refl _, Eq.refl _, Eq.refl _⟩⟩

theorem StructEq.trans {G1 G2 G3 : graph_t} (h1 : StructEq G1 G2)
    (h2 : StructEq G2 G3) : StructEq G1 G3 := by
  obtain ⟨a1, b1, c1⟩ := h1
  obtain ⟨a2, b2, c2⟩ := h2
  refine ⟨a1.trans a2, b1.trans b2, fun i => ?_⟩
  obtain ⟨x1, y1, z1⟩ := c1 i
  obtain ⟨x2, y2, z2⟩ := c2 i
  exact ⟨x1.trans x2, y1.trans y2, z1.trans z2⟩

theorem structEq_set_h_cost (G : graph_t) (c e : Nat) :
    StructEq (set_h_cost G c e) G := by
  refine ⟨rfl, set_h_cost_length .., fun i => ?_⟩
  rw [nd_set_h_cost]
  by_cases h : i = c ∧ c < G.nodes.length
  · obtain ⟨rfl, hlt⟩ := h
    simp [hlt]
  · simp [h]

theorem structEq_set_f_cost (G : graph_t) (c : Nat) :
    StructEq (set_f_cost G c) G := by
  refine ⟨rfl, set_f_cost_length .., fun i => ?_⟩
  rw [nd_set_f_cost]
  by_cases h : i = c ∧ c < G.nodes.length
  · obtain ⟨rfl, hlt⟩ := h
    simp [hlt]
  · simp [h]

theorem structEq_set_g_cost (G : graph_t) (c : Nat) (v : Real) :
    StructEq (set_g_cost G c v) G := by
  refine ⟨rfl, set_g_cost_length .., fun i => ?_⟩
  rw [nd_set_g_cost]
  by_cases h : i = c ∧ c < G.nodes.length
  · obtain ⟨rfl, hlt⟩ := h
    simp [hlt]
  · simp [h]

theorem structEq_set_parent (G : graph_t) (c p : Nat) :
    StructEq (set_parent G c p) G := by
  refine ⟨rfl, set_parent_length .., fun i => ?_⟩
  rw [nd_set_parent]
  by_cases h : i = c ∧ c < G.nodes.length
  · obtain ⟨rfl, hlt⟩ := h
    simp [hlt]
  · simp [h]

theorem calculate_distance_congr {G' G : graph_t} (h : StructEq G' G)
    (a b : Nat) : calculate_distance G' a b = calculate_distance G a b := by
  obtain ⟨-, -, hp⟩ := h
  unfold calculate_distance
  rw [(hp a).1, (hp a).2.1, (hp b).1, (hp b).2.1]

theorem neighbors_congr {G' G : graph_t} (h : StructEq G' G) (i : Nat) :
    (nd G' i).neighbors = (nd G i).neighbors := (h.2.2 i).2.2

end AStar

namespace AStar

/-! Pointwise effect of each cost setter on the mutable node fields. -/

theorem gcost_set_h_cost (G : graph_t) (c e v : Nat) :
    gcost (set_h_cost G c e) v = gcost G v := by
  unfold gcost
  rw [nd_set_h_cost]
  by_cases h : v = c ∧ c < G.nodes.length
  · obtain ⟨rfl, hlt⟩ := h
    simp [hlt]
  · simp [h]

theorem fcost_set_h_cost (G : graph_t) (c e v : Nat) :
    fcost (set_h_cost G c e) v = fcost G v := by
  unfold fcost
  rw [nd_set_h_cost]
  by_cases h : v = c ∧ c < G.nodes.length
  · obtain ⟨rfl, hlt⟩ := h
    simp [hlt]
  · simp [h]

theorem parent_set_h_cost (G : graph_t) (c e v : Nat) :
    (nd (set_h_cost G c e) v).parent = (nd G v).parent := by
  rw [nd_set_h_cost]
  by_cases h : v = c ∧ c < G.nodes.length
  · obtain ⟨rfl, hlt⟩ := h
    simp [hlt]
  · simp [h]

theorem hcost_set_h_cost_self {G : graph_t} {c : Nat}
    (hc : c < G.nodes.length) (e : Nat) :
    (nd (set_h_cost G c e) c).h_cost = calculate_distance G c e := by
  rw [nd_set_h_cost]
  simp [hc]

theorem hcost_set_h_cost_ne {G : graph_t} {c v : Nat} (h : v ≠ c) (e : Nat) :
    (nd (set_h_cost G c e) v).h_cost = (nd G v).h_cost := by
  rw [nd_set_h_cost]
  simp [h]

theorem gcost_set_f_cost (G : graph_t) (c v : Nat) :
    gcost (set_f_cost G c) v = gcost G v := by
  unfold gcost
  rw [nd_set_f_cost]
  by_cases h : v = c ∧ c < G.nodes.length
  · obtain ⟨rfl, hlt⟩ := h
    simp [hlt]
  · simp [h]

theorem hcost_set_f_cost (G : graph_t) (c v : Nat) :
    (nd (set_f_cost G c) v).h_cost = (nd G v).h_cost := by
  rw [nd_set_f_cost]
  by_cases h : v = c ∧ c < G.nodes.length
  · obtain ⟨rfl, hlt⟩ := h
    simp [hlt]
  · simp [h]

theorem parent_set_f_cost (G : graph_t) (c v : Nat) :
    (nd (set_f_cost G c) v).parent = (nd G v).parent := by
  rw [nd_set_f_cost]
  by_cases h : v = c ∧ c < G.nodes.length
  · obtain ⟨rfl, hlt⟩ := h
    simp [hlt]
  · simp [h]

theorem fcost_set_f_cost_self {G : graph_t} {c : Nat}
    (hc : c < G.nodes.length) :
    fcost (set_f_cost G c) c = (nd G c).g_cost + (nd G c).h_cost := by
  unfold fcost
  rw [nd_set_f_cost]
  simp [hc]

theorem fcost_set_f_cost_ne {G : graph_t} {c v : Nat} (h : v ≠ c) :
    fcost (set_f_cost G c) v = fcost G v := by
  unfold fcost
  rw [nd_set_f_cost]
  simp [h]

theorem gcost_set_g_cost_self {G : graph_t} {c : Nat}
    (hc : c < G.nodes.length) (x : Real) :
    gcost (set_g_cost G c x) c = x := by
  unfold gcost
  rw [nd_set_g_cost]
  simp [hc]

theorem gcost_set_g_cost_ne {G : graph_t} {c v : Nat} (h : v ≠ c) (x : Real) :
    gcost (set_g_cost G c x) v = gcost G v := by
  unfold gcost
  rw [nd_set_g_cost]
  simp [h]

theorem hcost_set_g_cost (G : graph_t) (c : Nat) (x : Real) (v : Nat) :
    (nd (set_g_cost G c x) v).h_cost = (nd G v).h_cost := by
  rw [nd_set_g_cost]
  by_cases h : v = c ∧ c < G.nodes.length
  · obtain ⟨rfl, hlt⟩ := h
    simp [hlt]
  · simp [h]

theorem fcost_set_g_cost (G : graph_t) (c : Nat) (x : Real) (v : Nat) :
    fcost (set_g_cost G c x) v = fcost G v := by
  unfold fcost
  rw [nd_set_g_cost]
  by_cases h : v = c ∧ c < G.nodes.length
  · obtain ⟨rfl, hlt⟩ := h
    simp [hlt]
  · simp [h]

theorem parent_set_g_cost (G : graph_t) (c : Nat) (x : Real) (v : Nat) :
    (nd (set_g_cost G c x) v).parent = (nd G v).parent := by
  rw [nd_set_g_cost]
  by_cases h : v = c ∧ c < G.nodes.length
  · obtain ⟨rfl, hlt⟩ := h
    simp [hlt]
  · simp [h]

theorem gcost_set_parent (G : graph_t) (c p v : Nat) :
    gcost (set_parent G c p) v = gcost G v := by
  unfold gcost
  rw [nd_set_parent]
  by_cases h : v = c ∧ c < G.nodes.length
  · obtain ⟨rfl, hlt⟩ := h
    simp [hlt]
  · simp [h]

theorem hcost_set_parent (G : graph_t) (c p v : Nat) :
    (nd (set_parent G c p) v).h_cost = (nd G v).h_cost := by
  rw [nd_set_parent]
  by_cases h : v = c ∧ c < G.nodes.length
  · obtain ⟨rfl, hlt⟩ := h
    simp [hlt]
  · simp [h]

theorem fcost_set_parent (G : graph_t) (c p v : Nat) :
    fcost (set_parent G c p) v = fcost G v := by
  unfold fcost
  rw [nd_set_parent]
  by_cases h : v = c ∧ c < G.nodes.length
  · obtain ⟨rfl, hlt⟩ := h
    simp [hlt]
  · simp [h]

theorem gcost_set_g_cost_of_ne_or {G : graph_t} {c v : Nat} (x : Real) :
    gcost (set_g_cost G c x) v = x ∨
      gcost (set_g_cost G c x) v = gcost G v := by
  by_cases h : v = c ∧ c < G.nodes.length
  · obtain ⟨rfl, hlt⟩ := h
    exact Or.inl (gcost_set_g_cost_self hlt x)
  · right
    unfold gcost
    rw [nd_set_g_cost]
    simp [h]

end AStar

namespace AStar

/-! Lemmas about the open-set and closed-set containers. -/

theorem mem_openIds {q : queue_t} {v : Nat} :
    v ∈ openIds q ↔ ∃ p, (v, p) ∈ q := by
  constructor
  · intro h
    obtain ⟨e, he, rfl⟩ := List.mem_map.mp h
    exact ⟨e.2, he⟩
  · rintro ⟨p, hp⟩
    exact List.mem_map.mpr ⟨(v, p), hp, rfl⟩

theorem queue_query_eq_true {q : queue_t} {v : Nat} :
    queue_query q v = true ↔ v ∈ openIds q := by
  simp only [queue_query, List.any_eq_true, beq_iff_eq, mem_openIds]
  constructor
  · rintro ⟨e, he, rfl⟩
    exact ⟨e.2, he⟩
  · rintro ⟨p, hp⟩
    exact ⟨(v, p), hp, rfl⟩

theorem queue_query_eq_false {q : queue_t} {v : Nat} :
    queue_query q v = false ↔ v ∉ openIds q := by
  rw [← queue_query_eq_true]
  cases queue_query q v <;> simp

theorem openIds_queue_add (q : queue_t) (v : Nat) (p : Real) :
    openIds (queue_add q v p) = openIds q ++ [v] := by
  simp [openIds, queue_add]

theorem openIds_queue_change_priority (q : queue_t) (v : Nat) (p : Real) :
    openIds (queue_change_priority q v p) = openIds q := by
  induction q with
  | nil => rfl
  | cons e t ih =>
    simp only [queue_change_priority, List.map_cons, openIds] at ih ⊢
    rw [ih]
    by_cases h : e.1 = v
    · simp [h]
    · simp [h]

theorem mem_queue_change_priority {q : queue_t} {v : Nat} {p : Real}
    {x : Nat × Real} (hx : x ∈ queue_change_priority q v p) :
    (x = (v, p) ∧ v ∈ openIds q) ∨ (x ∈ q ∧ x.1 ≠ v) := by
  obtain ⟨y, hy, rfl⟩ := List.mem_map.mp hx
  by_cases h : y.1 = v
  · exact Or.inl (by simp [h, mem_openIds]; exact ⟨y.2, h ▸ hy⟩)
  · right
    simp only [h, beq_iff_eq, if_neg h]
    exact ⟨hy, h⟩

theorem queue_min_le_best (best : Nat × Real) (l : List (Nat × Real)) :
    (queue_min best l).2 ≤ best.2 := by
  induction l generalizing best with
  | nil => exact le_refl _
  | cons x t ih =>
    show (queue_min (if x.2 < best.2 then x else best) t).2 ≤ best.2
    refine le_trans (ih _) ?_
    by_cases h : x.2 < best.2
    · simpa [h] using le_of_lt h
    · simp [h]

theorem queue_min_le {best : Nat × Real} {l : List (Nat × Real)} :
    ∀ e ∈ l, (queue_min best l).2 ≤ e.2 := by
  induction l generalizing best with
  | nil => intro e he; cases he
  | cons x t ih =>
    intro e he
    rcases List.mem_cons.mp he with rfl | he
    · show (queue_min (if e.2 < best.2 then e else best) t).2 ≤ e.2
      refine le_trans (queue_min_le_best _ _) ?_
      by_cases h : e.2 < best.2
      · simp [h]
      · simpa [h] using le_of_not_lt h
    · exact ih e he

theorem queue_min_mem (best : Nat × Real) (l : List (Nat × Real)) :
    queue_min best l = best ∨ queue_min best l ∈ l := by
  induction l generalizing best with
  | nil => exact Or.inl rfl
  | cons x t ih =>
    have hstep : queue_min best (x :: t) =
        queue_min (if x.2 < best.2 then x else best) t := rfl
    rcases ih (if x.2 < best.2 then x else best) with h | h
    · rw [hstep, h]
      by_cases hx : x.2 < best.2
      · rw [if_pos hx]
        exact Or.inr (List.mem_cons_self _ _)
      · rw [if_neg hx]
        exact Or.inl rfl
    · rw [hstep]
      exact Or.inr (List.mem_cons_of_mem _ h)

theorem queue_remove_spec {q : queue_t} (h : q ≠ []) :
    ∃ p, ((queue_remove q).1, p) ∈ q ∧ ∀ e ∈ q, p ≤ e.2 := by
  match q with
  | [] => exact absurd rfl h
  | x :: t =>
    refine ⟨(queue_min x t).2, ?_, ?_⟩
    · rcases queue_min_mem x t with hm | hm
      · simp [queue_remove, hm]
      · exact List.mem_cons_of_mem _ (by simpa [queue_remove] using hm)
    · intro e he
      rcases List.mem_cons.mp he with rfl | he
      · exact queue_min_le_best _ _
      · exact queue_min_le e he

theorem queue_remove_fst_mem {q : queue_t} (h : q ≠ []) :
    (queue_remove q).1 ∈ openIds q := by
  obtain ⟨p, hp, -⟩ := queue_remove_spec h
  exact mem_openIds.mpr ⟨p, hp⟩

theorem queue_remove_sublist (q : queue_t) :
    (queue_remove q).2.Sublist q := by
  match q with
  | [] => exact List.Sublist.refl _
  | x :: t => exact List.eraseP_sublist _

theorem mem_of_mem_queue_remove {q : queue_t} {x : Nat × Real}
    (hx : x ∈ (queue_remove q).2) : x ∈ q :=
  (queue_remove_sublist q).mem hx

theorem openIds_queue_remove_subset {q : queue_t} {v : Nat}
    (hv : v ∈ openIds (queue_remove q).2) : v ∈ openIds q := by
  obtain ⟨p, hp⟩ := mem_openIds.mp hv
  exact mem_openIds.mpr ⟨p, mem_of_mem_queue_remove hp⟩

theorem mem_queue_remove_of_ne {q : queue_t} {x : Nat × Real} (hx : x ∈ q)
    (hne : x.1 ≠ (queue_remove q).1) : x ∈ (queue_remove q).2 := by
  match q with
  | [] => cases hx
  | y :: t =>
    refine (List.mem_eraseP_of_neg ?_).mpr hx
    simpa using hne

theorem openIds_mem_queue_remove_of_ne {q : queue_t} {v : Nat}
    (hv : v ∈ openIds q) (hne : v ≠ (queue_remove q).1) :
    v ∈ openIds (queue_remove q).2 := by
  obtain ⟨p, hp⟩ := mem_openIds.mp hv
  exact mem_openIds.mpr ⟨p, mem_queue_remove_of_ne hp hne⟩

theorem not_mem_eraseP_ids {l : queue_t} {x : Nat}
    (hnd : (openIds l).Nodup) :
    x ∉ openIds (List.eraseP (fun e => e.1 == x) l) := by
  induction l with
  | nil => simp [openIds]
  | cons e t ih =>
    by_cases h : e.1 = x
    · rw [List.eraseP_cons, h]
      simp only [beq_self_eq_true, cond_true]
      simp only [openIds, List.map_cons, List.nodup_cons, h] at hnd
      exact fun hx => hnd.1 hx
    · rw [List.eraseP_cons]
      have : (e.1 == x) = false := beq_eq_false_iff_ne.mpr h
      rw [this]
      simp only [cond_false, openIds, List.map_cons, List.mem_cons]
      rintro (rfl | hx)
      · exact h rfl
      · exact ih (by simpa [openIds] using hnd.of_cons) hx

theorem queue_remove_fst_not_mem {q : queue_t}
    (hnd : (openIds q).Nodup) :
    (queue_remove q).1 ∉ openIds (queue_remove q).2 := by
  match q with
  | [] => simp [queue_remove, openIds]
  | x :: t => exact not_mem_eraseP_ids hnd

theorem openIds_queue_remove_nodup {q : queue_t}
    (hnd : (openIds q).Nodup) : (openIds (queue_remove q).2).Nodup :=
  ((queue_remove_sublist q).map Prod.fst).nodup hnd

theorem set_query_eq_true {s : set_t} {v : Nat} :
    set_query s v = true ↔ v ∈ s := List.elem_iff

theorem set_query_eq_false {s : set_t} {v : Nat} :
    set_query s v = false ↔ v ∉ s := by
  rw [← set_query_eq_true]
  cases set_query s v <;> simp

theorem mem_set_add {s : set_t} {v w : Nat} :
    w ∈ set_add s v ↔ w = v ∨ w ∈ s := by
  by_cases h : v ∈ s
  · simp only [set_add, if_pos h]
    exact ⟨Or.inr, fun hw => hw.elim (fun e => e ▸ h) id⟩
  · simp [set_add, if_neg h]

theorem mem_set_add_self (s : set_t) (v : Nat) : v ∈ set_add s v :=
  mem_set_add.mpr (Or.inl rfl)

theorem mem_set_add_of_mem {s : set_t} {w : Nat} (v : Nat) (h : w ∈ s) :
    w ∈ set_add s v := mem_set_add.mpr (Or.inr h)

theorem set_add_nodup {s : set_t} (h : s.Nodup) (v : Nat) :
    (set_add s v).Nodup := by
  by_cases hv : v ∈ s
  · simpa [set_add, if_pos hv] using h
  · simpa [set_add, if_neg hv, List.nodup_cons] using ⟨hv, h⟩

theorem length_set_add_of_not_mem {s : set_t} {v : Nat} (h : v ∉ s) :
    (set_add s v).length = s.length + 1 := by
  simp [set_add, if_neg h]

theorem length_set_add_of_mem {s : set_t} {v : Nat} (h : v ∈ s) :
    (set_add s v).length = s.length := by
  simp [set_add, if_pos h]

end AStar

namespace AStar

/-! Geometric facts about the Euclidean distance used as edge weight and
heuristic. -/

theorem calculate_distance_nonneg (G : graph_t) (a b : Nat) :
    0 ≤ calculate_distance G a b := Real.sqrt_nonneg _

theorem calculate_distance_self (G : graph_t) (a : Nat) :
    calculate_distance G a a = 0 := by
  unfold calculate_distance
  simp

theorem calculate_distance_eq_abs (G : graph_t) (a b : Nat) :
    calculate_distance G a b =
      Complex.abs ⟨(nd G a).longitude - (nd G b).longitude,
        (nd G a).latitude - (nd G b).latitude⟩ := by
  rw [Complex.abs_apply, Complex.normSq_mk]
  unfold calculate_distance
  congr 1
  ring

theorem calculate_distance_triangle (G : graph_t) (a b c : Nat) :
    calculate_distance G a c ≤
      calculate_distance G a b + calculate_distance G b c := by
  rw [calculate_distance_eq_abs G a c, calculate_distance_eq_abs G a b,
    calculate_distance_eq_abs G b c]
  have h1 : (⟨(nd G a).longitude - (nd G c).longitude,
      (nd G a).latitude - (nd G c).latitude⟩ : Complex) =
      (⟨(nd G a).longitude, (nd G a).latitude⟩ : Complex) -
        ⟨(nd G c).longitude, (nd G c).latitude⟩ := by
    apply Complex.ext <;> simp [Complex.sub_re, Complex.sub_im]
  have h2 : (⟨(nd G a).longitude - (nd G b).longitude,
      (nd G a).latitude - (nd G b).latitude⟩ : Complex) =
      (⟨(nd G a).longitude, (nd G a).latitude⟩ : Complex) -
        ⟨(nd G b).longitude, (nd G b).latitude⟩ := by
    apply Complex.ext <;> simp [Complex.sub_re, Complex.sub_im]
  have h3 : (⟨(nd G b).longitude - (nd G c).longitude,
      (nd G b).latitude - (nd G c).latitude⟩ : Complex) =
      (⟨(nd G b).longitude, (nd G b).latitude⟩ : Complex) -
        ⟨(nd G c).longitude, (nd G c).latitude⟩ := by
    apply Complex.ext <;> simp [Complex.sub_re, Complex.sub_im]
  rw [h1, h2, h3]
  exact AbsoluteValue.sub_le Complex.abs _ _ _

/-! Walks along adjacency lists and their weights. -/

theorem walk_weight_nonneg (G : graph_t) (u : Nat) (l : List Nat) :
    0 ≤ walk_weight G u l := by
  induction l generalizing u with
  | nil => exact le_refl _
  | cons v t ih =>
    show 0 ≤ calculate_distance G u v + walk_weight G v t
    exact add_nonneg (calculate_distance_nonneg G u v) (ih v)

theorem is_walk_append {G : graph_t} {u v : Nat} {l : List Nat}
    (h : is_walk G u l v) {w : Nat} (hw : w ∈ (nd G v).neighbors) :
    is_walk G u (l ++ [w]) w := by
  induction l generalizing u with
  | nil => exact ⟨h ▸ hw, rfl⟩
  | cons x t ih => exact ⟨h.1, ih h.2⟩

theorem walk_weight_append {G : graph_t} {u v : Nat} {l : List Nat}
    (h : is_walk G u l v) (w : Nat) :
    walk_weight G u (l ++ [w]) =
      walk_weight G u l + calculate_distance G v w := by
  induction l generalizing u with
  | nil =>
    have hv : u = v := h
    rw [hv]
    show calculate_distance G v w + 0 = 0 + calculate_distance G v w
    ring
  | cons x t ih =>
    show calculate_distance G u x + walk_weight G x (t ++ [w]) = _
    rw [ih h.2]
    show _ = calculate_distance G u x + walk_weight G x t +
      calculate_distance G v w
    ring

theorem heuristic_le_walk {G : graph_t} (e : Nat) {a b : Nat} {l : List Nat}
    (h : is_walk G a l b) :
    calculate_distance G a e ≤ walk_weight G a l + calculate_distance G b e := by
  induction l generalizing a with
  | nil =>
    cases h
    simp [walk_weight]
  | cons v t ih =>
    have tri := calculate_distance_triangle G a v e
    have rec := ih h.2
    have : calculate_distance G a v + calculate_distance G v e ≤
        calculate_distance G a v + (walk_weight G v t + calculate_distance G b e) :=
      add_le_add_left rec _
    calc calculate_distance G a e
        ≤ calculate_distance G a v + calculate_distance G v e := tri
      _ ≤ calculate_distance G a v + (walk_weight G v t + calculate_distance G b e) := this
      _ = walk_weight G a (v :: t) + calculate_distance G b e := by
          show _ = calculate_distance G a v + walk_weight G v t + calculate_distance G b e
          ring

theorem Reach.self (G : graph_t) (s : Nat) : Reach G s s := ⟨[], rfl⟩

theorem Reach.snoc {G : graph_t} {s u v : Nat} (h : Reach G s u)
    (hv : v ∈ (nd G u).neighbors) : Reach G s v := by
  obtain ⟨l, hl⟩ := h
  exact ⟨l ++ [v], is_walk_append hl hv⟩

theorem is_walk_congr {G' G : graph_t} (h : StructEq G' G) {u v : Nat}
    {l : List Nat} : is_walk G' u l v ↔ is_walk G u l v := by
  induction l generalizing u with
  | nil => exact Iff.rfl
  | cons x t ih =>
    show x ∈ (nd G' u).neighbors ∧ is_walk G' x t v ↔ _
    rw [neighbors_congr h, ih]
    exact Iff.rfl

theorem walk_weight_congr {G' G : graph_t} (h : StructEq G' G) (u : Nat)
    (l : List Nat) : walk_weight G' u l = walk_weight G u l := by
  induction l generalizing u with
  | nil => rfl
  | cons x t ih =>
    show calculate_distance G' u x + walk_weight G' x t = _
    rw [calculate_distance_congr h, ih]
    rfl

theorem reach_congr {G' G : graph_t} (h : StructEq G' G) {s v : Nat} :
    Reach G' s v ↔ Reach G s v := by
  unfold Reach
  constructor
  · rintro ⟨l, hl⟩
    exact ⟨l, (is_walk_congr h).mp hl⟩
  · rintro ⟨l, hl⟩
    exact ⟨l, (is_walk_congr h).mpr hl⟩

/-! Fuel plumbing for the search loop. -/

theorem terminal_iff (S : AState) :
    Terminal S ↔ (S.found = true ∨ queue_is_empty S.open_set = true) := by
  unfold Terminal queue_is_empty
  simp [List.isEmpty_iff]

theorem a_star_loop_zero (e : Nat) (S : AState) : a_star_loop e 0 S = S := rfl

theorem a_star_loop_succ (e k : Nat) (S : AState) :
    a_star_loop e (k + 1) S =
      if S.found = true ∨ queue_is_empty S.open_set = true then S
      else a_star_loop e k (a_star_step e S) := rfl

theorem a_star_loop_terminal {S : AState} (h : Terminal S) (e k : Nat) :
    a_star_loop e k S = S := by
  induction k with
  | zero => rfl
  | succ k _ =>
    rw [a_star_loop_succ, if_pos ((terminal_iff S).mp h)]

theorem a_star_loop_add (e a b : Nat) (S : AState) :
    a_star_loop e (a + b) S = a_star_loop e b (a_star_loop e a S) := by
  induction a generalizing S with
  | zero => rw [Nat.zero_add, a_star_loop_zero]
  | succ a ih =>
    by_cases h : S.found = true ∨ queue_is_empty S.open_set = true
    · have hT : Terminal S := (terminal_iff S).mpr h
      rw [a_star_loop_terminal hT, a_star_loop_terminal hT,
        a_star_loop_terminal hT]
    · rw [Nat.succ_add, a_star_loop_succ, if_neg h, a_star_loop_succ, if_neg h,
        ih]

theorem a_star_run_eq_runState (G : graph_t) (s e : Nat) :
    a_star_run G s e = runState G s e ((G.num_nodes + 1) ^ 2) := rfl

theorem runState_zero (G : graph_t) (s e : Nat) :
    runState G s e 0 = initState G s e := rfl

theorem runState_succ (G : graph_t) (s e k : Nat) :
    runState G s e (k + 1) =
      if (runState G s e k).found = true ∨
          queue_is_empty (runState G s e k).open_set = true then
        runState G s e k
      else a_star_step e (runState G s e k) := by
  show a_star_loop e (k + 1) _ = _
  rw [a_star_loop_add e k 1, a_star_loop_succ, a_star_loop_zero]
  rfl

theorem runState_le {G : graph_t} {s e k : Nat} (h : Terminal (runState G s e k))
    (k' : Nat) (hk : k ≤ k') : runState G s e k' = runState G s e k := by
  obtain ⟨d, rfl⟩ := Nat.exists_eq_add_of_le hk
  show a_star_loop e (k + d) _ = _
  rw [a_star_loop_add]
  exact a_star_loop_terminal h e d

end AStar

namespace AStar

/-! Effect of add_edge on the adjacency lists. -/

theorem insert_eq_append (l : List Nat) (v : Nat) : insert l v = l ++ [v] := by
  induction l with
  | nil => rfl
  | cons x t ih =>
    show x :: insert t v = x :: (t ++ [v])
    rw [ih]

theorem add_edge_spec {G : graph_t} {a b : Nat} (hab : a ≠ b)
    (ha : a < G.nodes.length) (hb : b < G.nodes.length) :
    (nd (add_edge G a b) a).neighbors = (nd G a).neighbors ++ [b] ∧
      (nd (add_edge G a b) b).neighbors = (nd G b).neighbors ++ [a] ∧
      ∀ c, c ≠ a → c ≠ b → nd (add_edge G a b) c = nd G c := by
  have hba : b ≠ a := Ne.symm hab
  have hAE : add_edge G a b =
      setNd (setNd G a { nd G a with neighbors := insert (nd G a).neighbors b })
        b { nd (setNd G a { nd G a with
              neighbors := insert (nd G a).neighbors b }) b with
            neighbors := insert (nd (setNd G a { nd G a with
              neighbors := insert (nd G a).neighbors b }) b).neighbors a } := rfl
  set G1 := setNd G a { nd G a with neighbors := insert (nd G a).neighbors b }
    with hG1
  have f1 : nd G1 b = nd G b := by
    rw [hG1, nd_setNd]
    simp [hba]
  have f2 : nd G1 a =
      { nd G a with neighbors := insert (nd G a).neighbors b } := by
    rw [hG1, nd_setNd]
    simp [ha]
  have f3 : ∀ c, c ≠ a → nd G1 c = nd G c := by
    intro c hc
    rw [hG1, nd_setNd]
    simp [hc]
  have hb1 : b < G1.nodes.length := by
    rw [hG1, setNd_length]
    exact hb
  have g1 : nd (add_edge G a b) b =
      { nd G1 b with neighbors := insert (nd G1 b).neighbors a } := by
    rw [hAE, nd_setNd]
    simp [hb1]
  have g2 : ∀ c, c ≠ b → nd (add_edge G a b) c = nd G1 c := by
    intro c hc
    rw [hAE, nd_setNd]
    simp [hc]
  refine ⟨?_, ?_, ?_⟩
  · rw [g2 a hab, f2]
    simp [insert_eq_append]
  · rw [g1, f1]
    simp [insert_eq_append]
  · intro c hca hcb
    rw [g2 c hcb, f3 c hca]

/-! Stability of closed nodes: step-local lemmas used for claims C6 and C7. -/

theorem relax_neighbor_cases (e c : Nat) (S : AState) (nb : Nat) :
    (relax_neighbor e c S nb).cs = S.cs ∧
      (relax_neighbor e c S nb).found = S.found := by
  simp only [relax_neighbor]
  by_cases h1 : queue_query S.open_set nb = true ∧
      gcost (set_h_cost S.g nb e) nb ≤
        calculate_g_cost (set_h_cost S.g nb e) c nb
  · rw [if_pos h1]
    exact ⟨rfl, rfl⟩
  rw [if_neg h1]
  by_cases h2 : set_query S.cs nb = true
  · rw [if_pos h2]
    exact ⟨rfl, rfl⟩
  rw [if_neg h2]
  by_cases h3 : queue_query S.open_set nb = true
  · rw [if_pos h3]
    exact ⟨rfl, rfl⟩
  · rw [if_neg h3]
    exact ⟨rfl, rfl⟩

theorem relax_neighbor_cs (e c : Nat) (S : AState) (nb : Nat) :
    (relax_neighbor e c S nb).cs = S.cs :=
  (relax_neighbor_cases e c S nb).1

theorem relax_neighbor_found (e c : Nat) (S : AState) (nb : Nat) :
    (relax_neighbor e c S nb).found = S.found :=
  (relax_neighbor_cases e c S nb).2

theorem relax_all_cs (e c : Nat) (S : AState) (l : List Nat) :
    (relax_all e c S l).cs = S.cs := by
  induction l generalizing S with
  | nil => rfl
  | cons nb t ih =>
    show (relax_all e c (relax_neighbor e c S nb) t).cs = S.cs
    rw [ih, relax_neighbor_cs]

theorem relax_all_found (e c : Nat) (S : AState) (l : List Nat) :
    (relax_all e c S l).found = S.found := by
  induction l generalizing S with
  | nil => rfl
  | cons nb t ih =>
    show (relax_all e c (relax_neighbor e c S nb) t).found = S.found
    rw [ih, relax_neighbor_found]

theorem parent_set_parent_ne {G : graph_t} {c v : Nat} (h : v ≠ c) (p : Nat) :
    (nd (set_parent G c p) v).parent = (nd G v).parent := by
  rw [nd_set_parent]
  simp [h]

theorem relax_neighbor_closed_fields {e c : Nat} {S : AState} {nb u : Nat}
    (hu : u ∈ S.cs) :
    (nd (relax_neighbor e c S nb).g u).g_cost = (nd S.g u).g_cost ∧
      (nd (relax_neighbor e c S nb).g u).f_cost = (nd S.g u).f_cost ∧
      (nd (relax_neighbor e c S nb).g u).parent = (nd S.g u).parent := by
  have hH : ∀ Gx : graph_t,
      (nd (set_h_cost Gx nb e) u).g_cost = (nd Gx u).g_cost ∧
        (nd (set_h_cost Gx nb e) u).f_cost = (nd Gx u).f_cost ∧
        (nd (set_h_cost Gx nb e) u).parent = (nd Gx u).parent := by
    intro Gx
    exact ⟨gcost_set_h_cost Gx nb e u, fcost_set_h_cost Gx nb e u,
      parent_set_h_cost Gx nb e u⟩
  simp only [relax_neighbor]
  by_cases h1 : queue_query S.open_set nb = true ∧
      gcost (set_h_cost S.g nb e) nb ≤
        calculate_g_cost (set_h_cost S.g nb e) c nb
  · rw [if_pos h1]
    exact hH S.g
  rw [if_neg h1]
  by_cases h2 : set_query S.cs nb = true
  · rw [if_pos h2]
    exact hH S.g
  rw [if_neg h2]
  have hune : u ≠ nb := by
    intro h
    exact h2 (set_query_eq_true.mpr (h ▸ hu))
  have hg : ∀ Gy : graph_t, ∀ x : Real,
      (nd (set_parent (set_f_cost (set_g_cost Gy nb x) nb) nb c) u).g_cost =
          (nd Gy u).g_cost ∧
        (nd (set_parent (set_f_cost (set_g_cost Gy nb x) nb) nb c) u).f_cost =
          (nd Gy u).f_cost ∧
        (nd (set_parent (set_f_cost (set_g_cost Gy nb x) nb) nb c) u).parent =
          (nd Gy u).parent := by
    intro Gy x
    refine ⟨?_, ?_, ?_⟩
    · exact (gcost_set_parent _ nb c u).trans
        ((gcost_set_f_cost _ nb u).trans (gcost_set_g_cost_ne hune x))
    · exact (fcost_set_parent _ nb c u).trans
        ((fcost_set_f_cost_ne hune).trans (fcost_set_g_cost _ nb x u))
    · exact (parent_set_parent_ne hune c).trans
        ((parent_set_f_cost _ nb u).trans (parent_set_g_cost _ nb x u))
  by_cases h3 : queue_query S.open_set nb = true
  · rw [if_pos h3]
    obtain ⟨a1, a2, a3⟩ := hg (set_h_cost S.g nb e)
      (calculate_g_cost (set_h_cost S.g nb e) c nb)
    obtain ⟨b1, b2, b3⟩ := hH S.g
    exact ⟨a1.trans b1, a2.trans b2, a3.trans b3⟩
  · rw [if_neg h3]
    obtain ⟨a1, a2, a3⟩ := hg (set_h_cost S.g nb e)
      (calculate_g_cost (set_h_cost S.g nb e) c nb)
    obtain ⟨b1, b2, b3⟩ := hH S.g
    exact ⟨a1.trans b1, a2.trans b2, a3.trans b3⟩

theorem relax_neighbor_open_cases (e c : Nat) (S : AState) (nb : Nat) :
    (relax_neighbor e c S nb).open_set = S.open_set ∨
      (∃ p, (relax_neighbor e c S nb).open_set =
        queue_change_priority S.open_set nb p) ∨
      (∃ p, (relax_neighbor e c S nb).open_set = queue_add S.open_set nb p ∧
        queue_query S.open_set nb = false ∧ set_query S.cs nb = false) := by
  simp only [relax_neighbor]
  by_cases h1 : queue_query S.open_set nb = true ∧
      gcost (set_h_cost S.g nb e) nb ≤
        calculate_g_cost (set_h_cost S.g nb e) c nb
  · rw [if_pos h1]
    exact Or.inl rfl
  rw [if_neg h1]
  by_cases h2 : set_query S.cs nb = true
  · rw [if_pos h2]
    exact Or.inl rfl
  rw [if_neg h2]
  by_cases h3 : queue_query S.open_set nb = true
  · rw [if_pos h3]
    exact Or.inr (Or.inl ⟨_, rfl⟩)
  · rw [if_neg h3]
    refine Or.inr (Or.inr ⟨_, rfl, ?_, ?_⟩)
    · simpa using h3
    · simpa using h2

theorem relax_neighbor_nodup {e c : Nat} {S : AState} {nb : Nat}
    (h : (openIds S.open_set).Nodup) :
    (openIds (relax_neighbor e c S nb).open_set).Nodup := by
  rcases relax_neighbor_open_cases e c S nb with hc | ⟨p, hc⟩ | ⟨p, hc, hq, -⟩
  · rw [hc]
    exact h
  · rw [hc, openIds_queue_change_priority]
    exact h
  · rw [hc, openIds_queue_add]
    have : nb ∉ openIds S.open_set := queue_query_eq_false.mp hq
    simp [List.nodup_append, h, this]

theorem relax_neighbor_closed_not_open {e c : Nat} {S : AState} {nb u : Nat}
    (hu : u ∈ S.cs) (ho : u ∉ openIds S.open_set) :
    u ∉ openIds (relax_neighbor e c S nb).open_set := by
  rcases relax_neighbor_open_cases e c S nb with hc | ⟨p, hc⟩ | ⟨p, hc, -, hs⟩
  · rw [hc]
    exact ho
  · rw [hc, openIds_queue_change_priority]
    exact ho
  · rw [hc, openIds_queue_add]
    have hne : u ≠ nb := by
      intro h
      rw [h] at hu
      exact absurd (set_query_eq_true.mpr hu) (by simp [hs])
    simp only [List.mem_append, List.mem_singleton]
    rintro (h | h)
    · exact ho h
    · exact hne h

theorem relax_all_nodup {e c : Nat} {S : AState} {l : List Nat}
    (h : (openIds S.open_set).Nodup) :
    (openIds (relax_all e c S l).open_set).Nodup := by
  induction l generalizing S with
  | nil => exact h
  | cons nb t ih =>
    show (openIds (relax_all e c (relax_neighbor e c S nb) t).open_set).Nodup
    exact ih (relax_neighbor_nodup h)

theorem relax_all_closed_not_open {e c : Nat} {S : AState} {l : List Nat}
    {u : Nat} (hu : u ∈ S.cs) (ho : u ∉ openIds S.open_set) :
    u ∉ openIds (relax_all e c S l).open_set := by
  induction l generalizing S with
  | nil => exact ho
  | cons nb t ih =>
    show u ∉ openIds (relax_all e c (relax_neighbor e c S nb) t).open_set
    exact ih (by rwa [relax_neighbor_cs]) (relax_neighbor_closed_not_open hu ho)

theorem relax_all_closed_fields {e c : Nat} {S : AState} {l : List Nat}
    {u : Nat} (hu : u ∈ S.cs) :
    (nd (relax_all e c S l).g u).g_cost = (nd S.g u).g_cost ∧
      (nd (relax_all e c S l).g u).f_cost = (nd S.g u).f_cost ∧
      (nd (relax_all e c S l).g u).parent = (nd S.g u).parent := by
  induction l generalizing S with
  | nil => exact ⟨rfl, rfl, rfl⟩
  | cons nb t ih =>
    have step := @relax_neighbor_closed_fields e c _ nb _ hu
    have rest := ih (S := relax_neighbor e c S nb)
      (by rwa [relax_neighbor_cs])
    exact ⟨rest.1.trans step.1, rest.2.1.trans step.2.1,
      rest.2.2.trans step.2.2⟩

theorem a_star_step_closed {e : Nat} {S : AState} {u : Nat} (hu : u ∈ S.cs) :
    u ∈ (a_star_step e S).cs ∧
      (nd (a_star_step e S).g u).g_cost = (nd S.g u).g_cost ∧
      (nd (a_star_step e S).g u).f_cost = (nd S.g u).f_cost ∧
      (nd (a_star_step e S).g u).parent = (nd S.g u).parent ∧
      (u ∉ openIds S.open_set → u ∉ openIds (a_star_step e S).open_set) := by
  unfold a_star_step
  by_cases hcur : (queue_remove S.open_set).1 = e
  · rw [if_pos hcur]
    refine ⟨hu, rfl, rfl, rfl, fun ho h => ho (openIds_queue_remove_subset h)⟩
  · rw [if_neg hcur]
    have hcs1 : u ∈ (AState.mk S.g (queue_remove S.open_set).2 S.cs S.found).cs := hu
    have hfields := relax_all_closed_fields
      (e := e) (c := (queue_remove S.open_set).1)
      (l := (nd S.g (queue_remove S.open_set).1).neighbors) hcs1
    have hcsall : u ∈ (relax_all e (queue_remove S.open_set).1
        (AState.mk S.g (queue_remove S.open_set).2 S.cs S.found)
        (nd S.g (queue_remove S.open_set).1).neighbors).cs := by
      rw [relax_all_cs]
      exact hu
    refine ⟨mem_set_add_of_mem _ hcsall, hfields.1, hfields.2.1, hfields.2.2,
      fun ho => ?_⟩
    exact relax_all_closed_not_open hcs1
      (fun h => ho (openIds_queue_remove_subset h))

theorem a_star_step_cs_mono {e : Nat} {S : AState} {w : Nat} (hw : w ∈ S.cs) :
    w ∈ (a_star_step e S).cs := by
  unfold a_star_step
  by_cases hcur : (queue_remove S.open_set).1 = e
  · rw [if_pos hcur]
    exact hw
  · rw [if_neg hcur]
    refine mem_set_add_of_mem _ ?_
    rw [relax_all_cs]
    exact hw

theorem a_star_step_nodup {e : Nat} {S : AState}
    (h : (openIds S.open_set).Nodup) :
    (openIds (a_star_step e S).open_set).Nodup := by
  unfold a_star_step
  by_cases hcur : (queue_remove S.open_set).1 = e
  · rw [if_pos hcur]
    exact openIds_queue_remove_nodup h
  · rw [if_neg hcur]
    exact relax_all_nodup (openIds_queue_remove_nodup h)

theorem runState_nodup (G : graph_t) (s e k : Nat) :
    (openIds (runState G s e k).open_set).Nodup := by
  induction k with
  | zero =>
    show (openIds (initState G s e).open_set).Nodup
    simp [initState, openIds, queue_add, queue_create]
  | succ k ih =>
    rw [runState_succ]
    by_cases h : (runState G s e k).found = true ∨
        queue_is_empty (runState G s e k).open_set = true
    · rw [if_pos h]
      exact ih
    · rw [if_neg h]
      exact a_star_step_nodup ih

theorem runState_closed_stable (G : graph_t) (s e u k : Nat) (d : Nat)
    (hu : u ∈ (runState G s e k).cs) :
    u ∈ (runState G s e (k + d)).cs ∧
      (nd (runState G s e (k + d)).g u).g_cost =
        (nd (runState G s e k).g u).g_cost ∧
      (nd (runState G s e (k + d)).g u).f_cost =
        (nd (runState G s e k).g u).f_cost ∧
      (nd (runState G s e (k + d)).g u).parent =
        (nd (runState G s e k).g u).parent ∧
      (u ∉ openIds (runState G s e k).open_set →
        u ∉ openIds (runState G s e (k + d)).open_set) := by
  induction d with
  | zero => exact ⟨hu, rfl, rfl, rfl, fun h => h⟩
  | succ d ih =>
    obtain ⟨m1, m2, m3, m4, m5⟩ := ih
    rw [show k + (d + 1) = (k + d) + 1 from rfl, runState_succ]
    by_cases h : (runState G s e (k + d)).found = true ∨
        queue_is_empty (runState G s e (k + d)).open_set = true
    · rw [if_pos h]
      exact ⟨m1, m2, m3, m4, m5⟩
    · rw [if_neg h]
      obtain ⟨s1, s2, s3, s4, s5⟩ := a_star_step_closed (e := e) m1
      exact ⟨s1, s2.trans m2, s3.trans m3, s4.trans m4, fun ho => s5 (m5 ho)⟩

/-! Structure preservation along a run, and the behaviour of a search whose
start equals its goal. -/

theorem initState_structEq (G : graph_t) (s e : Nat) :
    StructEq (initState G s e).g G :=
  (structEq_set_f_cost (set_h_cost G s e) s).trans (structEq_set_h_cost G s e)

theorem relax_neighbor_structEq (e c : Nat) (S : AState) (nb : Nat) :
    StructEq (relax_neighbor e c S nb).g S.g := by
  simp only [relax_neighbor]
  by_cases h1 : queue_query S.open_set nb = true ∧
      gcost (set_h_cost S.g nb e) nb ≤
        calculate_g_cost (set_h_cost S.g nb e) c nb
  · rw [if_pos h1]
    exact structEq_set_h_cost S.g nb e
  rw [if_neg h1]
  by_cases h2 : set_query S.cs nb = true
  · rw [if_pos h2]
    exact structEq_set_h_cost S.g nb e
  rw [if_neg h2]
  have hchain : StructEq (set_parent (set_f_cost (set_g_cost
      (set_h_cost S.g nb e) nb (calculate_g_cost (set_h_cost S.g nb e) c nb))
        nb) nb c) S.g :=
    (structEq_set_parent _ nb c).trans
      ((structEq_set_f_cost _ nb).trans
        ((structEq_set_g_cost _ nb _).trans (structEq_set_h_cost S.g nb e)))
  by_cases h3 : queue_query S.open_set nb = true
  · rw [if_pos h3]
    exact hchain
  · rw [if_neg h3]
    exact hchain

theorem relax_all_structEq (e c : Nat) (S : AState) (l : List Nat) :
    StructEq (relax_all e c S l).g S.g := by
  induction l generalizing S with
  | nil => exact StructEq.refl _
  | cons nb t ih =>
    exact (ih (relax_neighbor e c S nb)).trans (relax_neighbor_structEq e c S nb)

theorem a_star_step_structEq (e : Nat) (S : AState) :
    StructEq (a_star_step e S).g S.g := by
  unfold a_star_step
  by_cases hcur : (queue_remove S.open_set).1 = e
  · rw [if_pos hcur]
    exact StructEq.refl _
  · rw [if_neg hcur]
    exact relax_all_structEq ..

theorem runState_structEq (G : graph_t) (s e k : Nat) :
    StructEq (runState G s e k).g G := by
  induction k with
  | zero => exact initState_structEq G s e
  | succ k ih =>
    rw [runState_succ]
    by_cases h : (runState G s e k).found = true ∨
        queue_is_empty (runState G s e k).open_set = true
    · rw [if_pos h]
      exact ih
    · rw [if_neg h]
      exact (a_star_step_structEq e (runState G s e k)).trans ih

theorem initState_open_set (G : graph_t) (s e : Nat) :
    (initState G s e).open_set =
      [(s, fcost (set_f_cost (set_h_cost G s e) s) s)] := rfl

theorem initState_cs (G : graph_t) (s e : Nat) :
    (initState G s e).cs = [] := rfl

theorem initState_found (G : graph_t) (s e : Nat) :
    (initState G s e).found = false := rfl

theorem gcost_initState (G : graph_t) (s e v : Nat) :
    gcost (initState G s e).g v = gcost G v := by
  show gcost (set_f_cost (set_h_cost G s e) s) v = gcost G v
  rw [gcost_set_f_cost, gcost_set_h_cost]

theorem initState_not_terminal (G : graph_t) (s e : Nat) :
    ¬ ((initState G s e).found = true ∨
      queue_is_empty (initState G s e).open_set = true) := by
  rw [initState_found, initState_open_set]
  simp [queue_is_empty]

theorem queue_remove_singleton (v : Nat) (p : Real) :
    queue_remove [(v, p)] = (v, []) := by
  show ((queue_min (v, p) []).1,
    List.eraseP (fun e => e.1 == (queue_min (v, p) []).1) [(v, p)]) = (v, [])
  show ((v, p).1, List.eraseP (fun e => e.1 == (v, p).1) [(v, p)]) = (v, [])
  simp [List.eraseP_cons]

theorem one_le_fuel (n : Nat) : 1 ≤ (n + 1) ^ 2 :=
  Nat.one_le_iff_ne_zero.mpr (pow_ne_zero 2 (Nat.succ_ne_zero n))

theorem runState_one_self (G : graph_t) (s : Nat) :
    runState G s s 1 =
      { initState G s s with open_set := [], found := true } := by
  rw [runState_succ, runState_zero, if_neg (initState_not_terminal G s s)]
  unfold a_star_step
  rw [show queue_remove (initState G s s).open_set = (s, []) from by
    rw [initState_open_set, queue_remove_singleton]]
  rw [if_pos rfl]

theorem a_star_self {G : graph_t} {s : Nat} (hg : gcost G s = 0) :
    a_star G s s = -1 := by
  have hT : Terminal (runState G s s 1) := by
    rw [runState_one_self]
    exact Or.inl rfl
  have hrun : a_star_run G s s = runState G s s 1 := by
    rw [a_star_run_eq_runState]
    exact runState_le hT _ (one_le_fuel G.num_nodes)
  have hzero : gcost (a_star_run G s s).g s = 0 := by
    rw [hrun, runState_one_self]
    show gcost (initState G s s).g s = 0
    rw [gcost_initState]
    exact hg
  unfold a_star
  exact if_pos hzero

/-! Facts about the small concrete graphs. -/

theorem exGraph1_fresh : Fresh exGraph1 := by
  intro i
  match i with
  | 0 => exact ⟨rfl, rfl, rfl, rfl⟩
  | n + 1 => exact ⟨rfl, rfl, rfl, rfl⟩

theorem exGraph1_run1_cs : 0 ∈ (runState exGraph1 0 1 1).cs := by
  rw [runState_succ, runState_zero, if_neg (initState_not_terminal exGraph1 0 1)]
  unfold a_star_step
  rw [show queue_remove (initState exGraph1 0 1).open_set = (0, []) from by
    rw [initState_open_set, queue_remove_singleton]]
  rw [if_neg (show ¬ (((0 : Nat), ([] : queue_t)).1 = 1) by decide)]
  rw [show (nd (initState exGraph1 0 1).g 0).neighbors = ([] : List Nat)
    from rfl]
  show 0 ∈ set_add (initState exGraph1 0 1).cs 0
  rw [initState_cs]
  exact mem_set_add_self [] 0

/-! Claims C2, C4, C6 and C7. -/

/-- Claim C2, corrected: for every graph with fresh (zero-initialised) cost
state and every valid node id s, a_star(graph, s, s) returns the unreachable
sentinel -1, not 0.  The start node is extracted first and equals the goal,
so the loop breaks with g_cost(start) still 0, and the final
"g_cost(goal) == 0" test maps this legitimate zero-length path to the
sentinel. -/
theorem C2_start_eq_goal_returns_sentinel (G : graph_t) (s : Nat)
    (hF : Fresh G) (hs : s < G.num_nodes) : a_star G s s = -1 :=
  a_star_self (hF s).1

/-- Claim C2 counterexample: on the one-node graph with fresh state,
a_star(g, 0, 0) evaluates to -1 and not to 0, refuting the claim that a
search with start = goal returns 0. -/
theorem C2_counterexample :
    a_star exGraph1 0 0 = -1 ∧ a_star exGraph1 0 0 ≠ 0 := by
  have h := a_star_self (G := exGraph1) (s := 0) rfl
  refine ⟨h, ?_⟩
  rw [h]
  norm_num

/-- Claim C2 witness: the corrected statement applied to the one-node graph. -/
theorem C2_witness :
    Fresh exGraph1 ∧ 0 < exGraph1.num_nodes ∧ a_star exGraph1 0 0 = -1 :=
  ⟨exGraph1_fresh, by decide,
    C2_start_eq_goal_returns_sentinel exGraph1 0 exGraph1_fresh (by decide)⟩

/-- Claim C4: for valid distinct node ids a and b, one call of add_edge
appends b exactly once at the end of a's neighbor list and a exactly once at
the end of b's neighbor list, and leaves every other node (in particular all
previously stored neighbor entries, in their original order) unchanged. -/
theorem C4_add_edge_appends (G : graph_t) (a b : Nat)
    (hlen : G.nodes.length = G.num_nodes) (ha : a < G.num_nodes)
    (hb : b < G.num_nodes) (hab : a ≠ b) :
    (nd (add_edge G a b) a).neighbors = (nd G a).neighbors ++ [b] ∧
      (nd (add_edge G a b) b).neighbors = (nd G b).neighbors ++ [a] ∧
      ∀ c, c ≠ a → c ≠ b → nd (add_edge G a b) c = nd G c :=
  add_edge_spec hab (by rw [hlen]; exact ha) (by rw [hlen]; exact hb)

/-- Claim C4 witness: add_edge on the concrete two-node graph. -/
theorem C4_witness :
    exGraphTwo.nodes.length = exGraphTwo.num_nodes ∧
      0 < exGraphTwo.num_nodes ∧ 1 < exGraphTwo.num_nodes ∧ (0 : Nat) ≠ 1 ∧
      ((nd (add_edge exGraphTwo 0 1) 0).neighbors =
          (nd exGraphTwo 0).neighbors ++ [1] ∧
        (nd (add_edge exGraphTwo 0 1) 1).neighbors =
          (nd exGraphTwo 1).neighbors ++ [0] ∧
        ∀ c, c ≠ 0 → c ≠ 1 → nd (add_edge exGraphTwo 0 1) c = nd exGraphTwo c) :=
  ⟨rfl, by decide, by decide, by decide,
    C4_add_edge_appends exGraphTwo 0 1 rfl (by decide) (by decide) (by decide)⟩

/-- Claim C6: during a single run, closed-set membership is monotonic (once a
node id is added it is never removed), and once a node is closed its g_cost,
f_cost and parent fields never change again; moreover a closed node that is
not in the open set is never re-inserted into it. -/
theorem C6_closed_set_stable (G : graph_t) (s e u k k' : Nat) (hkk : k ≤ k')
    (hu : u ∈ (runState G s e k).cs) :
    u ∈ (runState G s e k').cs ∧
      (nd (runState G s e k').g u).g_cost =
        (nd (runState G s e k).g u).g_cost ∧
      (nd (runState G s e k').g u).f_cost =
        (nd (runState G s e k).g u).f_cost ∧
      (nd (runState G s e k').g u).parent =
        (nd (runState G s e k).g u).parent ∧
      (u ∉ openIds (runState G s e k).open_set →
        u ∉ openIds (runState G s e k').open_set) := by
  obtain ⟨d, rfl⟩ := Nat.exists_eq_add_of_le hkk
  exact runState_closed_stable G s e u k d hu

/-- Claim C6 witness: the stability statement applied to the one-node graph
after its first loop iteration. -/
theorem C6_witness :
    1 ≤ 2 ∧ 0 ∈ (runState exGraph1 0 1 1).cs ∧
      (0 ∈ (runState exGraph1 0 1 2).cs ∧
        (nd (runState exGraph1 0 1 2).g 0).g_cost =
          (nd (runState exGraph1 0 1 1).g 0).g_cost ∧
        (nd (runState exGraph1 0 1 2).g 0).f_cost =
          (nd (runState exGraph1 0 1 1).g 0).f_cost ∧
        (nd (runState exGraph1 0 1 2).g 0).parent =
          (nd (runState exGraph1 0 1 1).g 0).parent ∧
        (0 ∉ openIds (runState exGraph1 0 1 1).open_set →
          0 ∉ openIds (runState exGraph1 0 1 2).open_set)) :=
  ⟨by decide, exGraph1_run1_cs,
    C6_closed_set_stable exGraph1 0 1 0 1 2 (by decide) exGraph1_run1_cs⟩

/-- Claim C7: at every point during a run the open set holds at most one live
entry per node id — the list of live node ids never contains a duplicate,
because insertion happens only after a negative membership query and repeated
improvements go through a priority change on the existing entry. -/
theorem C7_open_set_unique_entries (G : graph_t) (s e k : Nat) :
    (openIds (runState G s e k).open_set).Nodup :=
  runState_nodup G s e k

/-! Establishing the invariant at initialisation. -/

theorem inv_init {G : graph_t} {s e : Nat} (hWF : WF G) (hs : s < G.num_nodes)
    (hF : Fresh G) : Inv G s e (initState G s e) := by
  have hsl : s < G.nodes.length := by
    rw [hWF.1]
    exact hs
  have hoids : openIds (initState G s e).open_set = [s] := by
    rw [initState_open_set]
    rfl
  have hgv : ∀ v, gcost (initState G s e).g v = 0 := by
    intro v
    rw [gcost_initState]
    exact (hF v).1
  have hfs : fcost (initState G s e).g s =
      gcost G s + calculate_distance G s e := by
    show fcost (set_f_cost (set_h_cost G s e) s) s = _
    rw [fcost_set_f_cost_self (by rw [set_h_cost_length]; exact hsl)]
    rw [hcost_set_h_cost_self hsl e]
    rw [show (nd (set_h_cost G s e) s).g_cost =
      gcost (set_h_cost G s e) s from rfl, gcost_set_h_cost]
  have hhs : (nd (initState G s e).g s).h_cost =
      calculate_distance G s e := by
    show (nd (set_f_cost (set_h_cost G s e) s) s).h_cost = _
    rw [hcost_set_f_cost, hcost_set_h_cost_self hsl]
  have hfv : ∀ v, v ≠ s → fcost (initState G s e).g v = fcost G v := by
    intro v hv
    show fcost (set_f_cost (set_h_cost G s e) s) v = _
    rw [fcost_set_f_cost_ne hv, fcost_set_h_cost]
  refine ⟨initState_structEq G s e, ?_, ?_, ?_, ?_, ?_, ?_, ?_, ?_, ?_, ?_,
    ?_, ?_, ?_, ?_, ?_, ?_, ?_, ?_, ?_⟩
  · rw [hoids]
    exact List.nodup_singleton s
  · intro v hv
    rw [hoids, List.mem_singleton] at hv
    exact hv ▸ hs
  · intro v hv
    cases hv
  · exact List.nodup_nil
  · intro v hv
    rw [hoids, List.mem_singleton] at hv
    exact hv ▸ Reach.self G s
  · intro v hv
    cases hv
  · intro v hv
    rcases hv with hv | hv
    · rw [hoids, List.mem_singleton] at hv
      subst hv
      exact ⟨[], rfl, by rw [hgv v]; rfl⟩
    · cases hv
  · intro h
    exact absurd (hgv e) h
  · intro v _
    exact hgv v
  · have hg0 : gcost G s = 0 := (hF s).1
    by_cases hse : s = e
    · subst hse
      rw [hfs, hg0, hgv s, calculate_distance_self]
      norm_num
    · have hf0 : fcost G e = 0 := (hF e).2.2.1
      rw [hfv e (fun h => hse h.symm), hgv e, hf0]
  · intro hmem
    rw [hoids, List.mem_singleton] at hmem
    subst hmem
    rw [hhs, calculate_distance_self]
  · intro h
    exact absurd h (by rw [initState_found]; simp)
  · intro en hen
    rw [initState_open_set, List.mem_singleton] at hen
    subst hen
    refine ⟨rfl, ?_⟩
    show fcost (initState G s e).g s =
      gcost (initState G s e).g s + calculate_distance G s e
    have hg0 : gcost G s = 0 := (hF s).1
    rw [hfs, hgv s, hg0]
  · intro u hu
    cases hu
  · intro _ u hu
    cases hu
  · intro _
    left
    rw [hoids]
    exact List.mem_singleton_self s
  · exact hgv s
  · intro h
    cases h
  · intro h
    exact absurd h (by rw [initState_found]; simp)

/-! The frontier-crossing argument: any walk from the start to an unclosed
target passes through an open node whose f-estimate is at most the walk
weight plus the target's heuristic; consequently the extracted minimum has an
optimal g-cost. -/

theorem walk_weight_cons (G : graph_t) (u v : Nat) (t : List Nat) :
    walk_weight G u (v :: t) =
      calculate_distance G u v + walk_weight G v t := rfl

theorem inv_cross {G : graph_t} {s e : Nat} {S : AState} (hI : Inv G s e S)
    (hf : S.found = false) :
    ∀ (l : List Nat) (u tgt : Nat), is_walk G u l tgt → u ∈ S.cs →
      tgt ∉ S.cs →
      ∃ v, v ∈ openIds S.open_set ∧
        gcost S.g v + calculate_distance G v e ≤
          gcost S.g u + walk_weight G u l + calculate_distance G tgt e := by
  intro l
  induction l with
  | nil =>
    intro u tgt hw hu htgt
    exact absurd ((show u = tgt from hw) ▸ hu) htgt
  | cons v1 t ih =>
    intro u tgt hw hu htgt
    obtain ⟨hv1nb, hwt⟩ := hw
    have hv1nbG : v1 ∈ (nd G u).neighbors := hv1nb
    rcases hI.frontier hf u hu v1 hv1nbG with hv1cs | ⟨hv1open, hbound⟩
    · obtain ⟨v, hvopen, hvle⟩ := ih v1 tgt hwt hv1cs htgt
      obtain ⟨lu, hlu, hlw⟩ := hI.gWalk u (Or.inr hu)
      have happ : is_walk G s (lu ++ [v1]) v1 := is_walk_append hlu hv1nbG
      have hwapp := walk_weight_append hlu v1
      have hmin := hI.csMin v1 hv1cs (lu ++ [v1]) happ
      rw [hwapp, hlw] at hmin
      refine ⟨v, hvopen, ?_⟩
      rw [walk_weight_cons]
      linarith
    · refine ⟨v1, hv1open, ?_⟩
      have hcons := heuristic_le_walk (G := G) e hwt
      rw [walk_weight_cons]
      linarith

theorem extract_min_opt {G : graph_t} {s e : Nat} {S : AState}
    (hI : Inv G s e S) (hf : S.found = false) (hne : S.open_set ≠ [])
    (hxcs : (queue_remove S.open_set).1 ∉ S.cs) :
    ∀ l, is_walk G s l (queue_remove S.open_set).1 →
      gcost S.g (queue_remove S.open_set).1 ≤ walk_weight G s l := by
  intro l hl
  obtain ⟨px, hpx, hpmin⟩ := queue_remove_spec hne
  have hxprio := hI.prio _ hpx
  have e1 : px = gcost S.g (queue_remove S.open_set).1 +
      calculate_distance G (queue_remove S.open_set).1 e :=
    hxprio.1.trans hxprio.2
  have hcand : ∃ v, v ∈ openIds S.open_set ∧
      gcost S.g v + calculate_distance G v e ≤
        walk_weight G s l +
          calculate_distance G (queue_remove S.open_set).1 e := by
    by_cases hscs : s ∈ S.cs
    · obtain ⟨v, hvo, hvle⟩ := inv_cross hI hf l s _ hl hscs hxcs
      refine ⟨v, hvo, ?_⟩
      rw [hI.gsZero] at hvle
      linarith
    · have hso : s ∈ openIds S.open_set := (hI.startMem hf).resolve_right hscs
      refine ⟨s, hso, ?_⟩
      have hcons := heuristic_le_walk (G := G) e hl
      rw [hI.gsZero]
      linarith
  obtain ⟨v, hvo, hvle⟩ := hcand
  obtain ⟨pv, hpv⟩ := mem_openIds.mp hvo
  have hvprio := hI.prio (v, pv) hpv
  have e2 : pv = gcost S.g v + calculate_distance G v e :=
    hvprio.1.trans hvprio.2
  have hle : px ≤ pv := hpmin (v, pv) hpv
  rw [e1, e2] at hle
  linarith

/-! Preservation of the relaxation invariant by a skipped neighbor (only the
neighbor's h-cost is rewritten). -/

theorem hcost_set_h_goal {G0 : graph_t} (e nb : Nat) :
    (nd (set_h_cost G0 nb e) e).h_cost = (nd G0 e).h_cost ∨
      (nd (set_h_cost G0 nb e) e).h_cost = 0 := by
  by_cases hne : e = nb
  · subst hne
    by_cases hlt : e < G0.nodes.length
    · right
      rw [hcost_set_h_cost_self hlt, calculate_distance_self]
    · left
      rw [nd_set_h_cost]
      simp [hlt]
  · left
    exact hcost_set_h_cost_ne hne e

theorem rinv_set_h {G : graph_t} {s e x : Nat} {gx : Real} {S : AState}
    (hR : RInv G s e x gx S) (nb : Nat) :
    RInv G s e x gx { S with g := set_h_cost S.g nb e } := by
  have hgc : ∀ v, gcost (set_h_cost S.g nb e) v = gcost S.g v :=
    fun v => gcost_set_h_cost S.g nb e v
  have hfc : ∀ v, fcost (set_h_cost S.g nb e) v = fcost S.g v :=
    fun v => fcost_set_h_cost S.g nb e v
  refine ⟨?_, hR.nodup, hR.validOpen, hR.validCs, hR.csNodup, hR.reachOpen,
    hR.reachCs, ?_, ?_, ?_, ?_, ?_, ?_, ?_, ?_, ?_, hR.startMemMid, ?_,
    hR.eNotCs, hR.foundFalse, hR.xReach, hR.xValid, ?_, hR.xWalk, hR.xMin⟩
  · exact (structEq_set_h_cost S.g nb e).trans hR.structEq
  · intro v hv
    show ∃ l, is_walk G s l v ∧ walk_weight G s l =
      gcost (set_h_cost S.g nb e) v
    rw [hgc v]
    exact hR.gWalk v hv
  · intro h
    have h' : gcost S.g e ≠ 0 := by
      intro h0
      apply h
      show gcost (set_h_cost S.g nb e) e = 0
      rw [hgc e]
      exact h0
    show ∃ l, is_walk G s l e ∧ walk_weight G s l =
      gcost (set_h_cost S.g nb e) e
    rw [hgc e]
    exact hR.geWalk h'
  · intro v hv
    show gcost (set_h_cost S.g nb e) v = 0
    rw [hgc v]
    exact hR.gUnreached v hv
  · show fcost (set_h_cost S.g nb e) e = gcost (set_h_cost S.g nb e) e
    rw [hgc e, hfc e]
    exact hR.feEq
  · intro hmem
    show (nd (set_h_cost S.g nb e) e).h_cost = 0
    rcases @hcost_set_h_goal S.g e nb with h | h
    · rw [h]
      exact hR.heOpen hmem
    · exact h
  · intro h
    exact absurd (hR.foundFalse ▸ h) (by simp)
  · intro en hen
    obtain ⟨h1, h2⟩ := hR.prio en hen
    refine ⟨?_, ?_⟩
    · show en.2 = fcost (set_h_cost S.g nb e) en.1
      rw [hfc en.1]
      exact h1
    · show fcost (set_h_cost S.g nb e) en.1 =
        gcost (set_h_cost S.g nb e) en.1 + calculate_distance G en.1 e
      rw [hfc en.1, hgc en.1]
      exact h2
  · intro u hu l hl
    show gcost (set_h_cost S.g nb e) u ≤ walk_weight G s l
    rw [hgc u]
    exact hR.csMin u hu l hl
  · intro u hu v hv
    rcases hR.frontierMid u hu v hv with h | h | ⟨hvo, hb⟩
    · exact Or.inl h
    · exact Or.inr (Or.inl h)
    · refine Or.inr (Or.inr ⟨hvo, ?_⟩)
      show gcost (set_h_cost S.g nb e) v ≤
        gcost (set_h_cost S.g nb e) u + calculate_distance G u v
      rw [hgc v, hgc u]
      exact hb
  · show gcost (set_h_cost S.g nb e) s = 0
    rw [hgc s]
    exact hR.gsZero
  · show gcost (set_h_cost S.g nb e) x = gx
    rw [hgc x]
    exact hR.xG

/-! Preservation of the relaxation invariant by one neighbor-loop iteration,
together with the clause recorded for the processed neighbor. -/

theorem rinv_relax_neighbor {G : graph_t} {s e x : Nat} {gx : Real}
    {S : AState} (hR : RInv G s e x gx S) (hWF : WF G) {nb : Nat}
    (hnb : nb ∈ (nd G x).neighbors) :
    RInv G s e x gx (relax_neighbor e x S nb) ∧
      PostClause G x gx nb (relax_neighbor e x S nb) := by
  have hnbval : nb < G.num_nodes := hWF.2 x nb hnb
  have hlenS : S.g.nodes.length = G.num_nodes :=
    hR.structEq.2.1.trans hWF.1
  have hgx0 : 0 ≤ gx := by
    obtain ⟨lx, -, hlw⟩ := hR.xWalk
    rw [← hlw]
    exact walk_weight_nonneg G s lx
  have hreach_nb : Reach G s nb := hR.xReach.snoc hnb
  simp only [relax_neighbor]
  by_cases h1 : queue_query S.open_set nb = true ∧
      gcost (set_h_cost S.g nb e) nb ≤
        calculate_g_cost (set_h_cost S.g nb e) x nb
  · rw [if_pos h1]
    refine ⟨rinv_set_h hR nb, Or.inr ⟨queue_query_eq_true.mp h1.1, ?_⟩⟩
    show gcost (set_h_cost S.g nb e) nb ≤ gx + calculate_distance G x nb
    have hpg : calculate_g_cost (set_h_cost S.g nb e) x nb =
        gx + calculate_distance G x nb := by
      show (nd (set_h_cost S.g nb e) x).g_cost +
        calculate_distance (set_h_cost S.g nb e) x nb = _
      rw [calculate_distance_congr
        ((structEq_set_h_cost S.g nb e).trans hR.structEq),
        show (nd (set_h_cost S.g nb e) x).g_cost =
          gcost (set_h_cost S.g nb e) x from rfl,
        gcost_set_h_cost, hR.xG]
    rw [← hpg]
    exact h1.2
  rw [if_neg h1]
  by_cases h2 : set_query S.cs nb = true
  · rw [if_pos h2]
    exact ⟨rinv_set_h hR nb, Or.inl (set_query_eq_true.mp h2)⟩
  rw [if_neg h2]
  have hnbcs : nb ∉ S.cs := fun h => h2 (set_query_eq_true.mpr h)
  set G1 := set_h_cost S.g nb e with hG1def
  set pg := calculate_g_cost G1 x nb with hpgdef
  set G4 := set_parent (set_f_cost (set_g_cost G1 nb pg) nb) nb x with hG4def
  have hlen1 : G1.nodes.length = G.num_nodes := by
    rw [hG1def, set_h_cost_length]
    exact hlenS
  have hnbS : nb < S.g.nodes.length := by
    rw [hlenS]
    exact hnbval
  have hnb1 : nb < G1.nodes.length := by
    rw [hlen1]
    exact hnbval
  have hnb2 : nb < (set_g_cost G1 nb pg).nodes.length := by
    rw [set_g_cost_length]
    exact hnb1
  have hSE1 : StructEq G1 G :=
    (structEq_set_h_cost S.g nb e).trans hR.structEq
  have hSE4 : StructEq G4 G := by
    rw [hG4def]
    exact (structEq_set_parent _ nb x).trans
      ((structEq_set_f_cost _ nb).trans
        ((structEq_set_g_cost _ nb pg).trans hSE1))
  have hpg : pg = gx + calculate_distance G x nb := by
    rw [hpgdef]
    show (nd G1 x).g_cost + calculate_distance G1 x nb = _
    rw [calculate_distance_congr hSE1,
      show (nd G1 x).g_cost = gcost G1 x from rfl, hG1def, gcost_set_h_cost,
      hR.xG]
  have hpgnn : 0 ≤ pg := by
    rw [hpg]
    exact add_nonneg hgx0 (calculate_distance_nonneg G x nb)
  have hG4g_nb : gcost G4 nb = pg := by
    rw [hG4def, gcost_set_parent, gcost_set_f_cost, gcost_set_g_cost_self hnb1]
  have hG4g_ne : ∀ v, v ≠ nb → gcost G4 v = gcost S.g v := by
    intro v hv
    rw [hG4def, gcost_set_parent, gcost_set_f_cost, gcost_set_g_cost_ne hv,
      hG1def, gcost_set_h_cost]
  have hh1nb : (nd G1 nb).h_cost = calculate_distance G nb e := by
    rw [hG1def, hcost_set_h_cost_self hnbS e, calculate_distance_congr hR.structEq]
  have hG4h_nb : (nd G4 nb).h_cost = calculate_distance G nb e := by
    rw [hG4def, hcost_set_parent, hcost_set_f_cost, hcost_set_g_cost]
    exact hh1nb
  have hG4h_ne : ∀ v, v ≠ nb → (nd G4 v).h_cost = (nd S.g v).h_cost := by
    intro v hv
    rw [hG4def, hcost_set_parent, hcost_set_f_cost, hcost_set_g_cost,
      hG1def, hcost_set_h_cost_ne hv]
  have hG4f_nb : fcost G4 nb = pg + calculate_distance G nb e := by
    rw [hG4def, fcost_set_parent, fcost_set_f_cost_self hnb2]
    rw [show (nd (set_g_cost G1 nb pg) nb).g_cost =
      gcost (set_g_cost G1 nb pg) nb from rfl, gcost_set_g_cost_self hnb1]
    rw [hcost_set_g_cost]
    rw [hh1nb]
  have hG4f_ne : ∀ v, v ≠ nb → fcost G4 v = fcost S.g v := by
    intro v hv
    rw [hG4def, fcost_set_parent, fcost_set_f_cost_ne hv, fcost_set_g_cost,
      hG1def, fcost_set_h_cost]
  have hwalk_nb : ∃ l, is_walk G s l nb ∧ walk_weight G s l = pg := by
    obtain ⟨lx, hlx, hlw⟩ := hR.xWalk
    exact ⟨lx ++ [nb], is_walk_append hlx hnb,
      by rw [walk_weight_append hlx nb, hlw, hpg]⟩
  have hxg4 : gcost G4 x = gx := by
    by_cases hxnb : x = nb
    · rw [hxnb, hG4g_nb, hpg, ← hxnb, calculate_distance_self, add_zero]
    · rw [hG4g_ne x hxnb]
      exact hR.xG
  have hsg4 : gcost G4 s = 0 := by
    by_cases hsnb : s = nb
    · subst hsnb
      by_cases hso : s ∈ openIds S.open_set
      · exfalso
        apply h1
        refine ⟨queue_query_eq_true.mpr hso, ?_⟩
        show gcost G1 s ≤ pg
        rw [hG1def, gcost_set_h_cost, hR.gsZero]
        exact hpgnn
      · rcases hR.startMemMid with hs1 | hs1 | hs1
        · exact absurd hs1 hso
        · exact absurd hs1 hnbcs
        · have hgx : gx = 0 := by
            rw [← hR.xG, ← hs1]
            exact hR.gsZero
          rw [hG4g_nb, hpg, ← hs1, calculate_distance_self, hgx, add_zero]
    · rw [hG4g_ne s hsnb]
      exact hR.gsZero
  have hge4 : gcost G4 e ≠ 0 →
      ∃ l, is_walk G s l e ∧ walk_weight G s l = gcost G4 e := by
    intro hne0
    by_cases henb : e = nb
    · subst henb
      rw [hG4g_nb]
      exact hwalk_nb
    · rw [hG4g_ne e henb] at hne0 ⊢
      exact hR.geWalk hne0
  have hfe4 : fcost G4 e = gcost G4 e := by
    by_cases henb : e = nb
    · subst henb
      rw [hG4g_nb, hG4f_nb, calculate_distance_self, add_zero]
    · rw [hG4g_ne e henb, hG4f_ne e henb]
      exact hR.feEq
  have hgU4 : ∀ v, ¬ Reach G s v → gcost G4 v = 0 := by
    intro v hv
    have hvnb : v ≠ nb := fun h => hv (h ▸ hreach_nb)
    rw [hG4g_ne v hvnb]
    exact hR.gUnreached v hv
  have hcsMin4 : ∀ u ∈ S.cs, ∀ l, is_walk G s l u →
      gcost G4 u ≤ walk_weight G s l := by
    intro u hu l hl
    have hune : u ≠ nb := fun h => hnbcs (h ▸ hu)
    rw [hG4g_ne u hune]
    exact hR.csMin u hu l hl
  have hhe4 : ∀ hmem : e ∈ openIds S.open_set ∨ e = nb, (nd G4 e).h_cost = 0 := by
    intro hmem
    by_cases henb : e = nb
    · rw [henb, hG4h_nb, ← henb, calculate_distance_self]
    · rw [hG4h_ne e henb]
      exact hR.heOpen (hmem.resolve_right henb)
  by_cases h3 : queue_query S.open_set nb = true
  · rw [if_pos h3]
    have hnbo : nb ∈ openIds S.open_set := queue_query_eq_true.mp h3
    have hguard : pg < gcost S.g nb := by
      by_contra hcon
      apply h1
      refine ⟨h3, ?_⟩
      show gcost G1 nb ≤ pg
      rw [hG1def, gcost_set_h_cost]
      exact le_of_not_lt hcon
    have hmemQ : ∀ v : Nat,
        v ∈ openIds (queue_change_priority S.open_set nb (fcost G4 nb)) ↔
          v ∈ openIds S.open_set := by
      intro v
      rw [openIds_queue_change_priority]
    refine ⟨⟨hSE4, ?_, ?_, hR.validCs, hR.csNodup, ?_, hR.reachCs, ?_, hge4,
      hgU4, hfe4, ?_, ?_, ?_, hcsMin4, ?_, ?_, hsg4, hR.eNotCs, hR.foundFalse,
      hR.xReach, hR.xValid, hxg4, hR.xWalk, hR.xMin⟩, ?_⟩
    · show (openIds (queue_change_priority S.open_set nb (fcost G4 nb))).Nodup
      rw [openIds_queue_change_priority]
      exact hR.nodup
    · exact fun v hv => hR.validOpen v ((hmemQ v).mp hv)
    · exact fun v hv => hR.reachOpen v ((hmemQ v).mp hv)
    · intro v hv
      show ∃ l, is_walk G s l v ∧ walk_weight G s l = gcost G4 v
      by_cases hvnb : v = nb
      · subst hvnb
        rw [hG4g_nb]
        exact hwalk_nb
      · rw [hG4g_ne v hvnb]
        exact hR.gWalk v (hv.imp (fun h => (hmemQ v).mp h) id)
    · exact fun hmem => hhe4 (Or.inl ((hmemQ e).mp hmem))
    · intro h
      exact absurd (hR.foundFalse ▸ h) (by simp)
    · intro en hen
      rcases mem_queue_change_priority hen with ⟨rfl, -⟩ | ⟨hold, hne⟩
      · refine ⟨rfl, ?_⟩
        show fcost G4 nb = gcost G4 nb + calculate_distance G nb e
        rw [hG4f_nb, hG4g_nb]
      · obtain ⟨p1, p2⟩ := hR.prio en hold
        refine ⟨?_, ?_⟩
        · show en.2 = fcost G4 en.1
          rw [hG4f_ne en.1 hne]
          exact p1
        · show fcost G4 en.1 = gcost G4 en.1 + calculate_distance G en.1 e
          rw [hG4f_ne en.1 hne, hG4g_ne en.1 hne]
          exact p2
    · intro u hu v hv
      rcases hR.frontierMid u hu v hv with h | h | ⟨hvo, hb⟩
      · exact Or.inl h
      · exact Or.inr (Or.inl h)
      · refine Or.inr (Or.inr ⟨(hmemQ v).mpr hvo, ?_⟩)
        show gcost G4 v ≤ gcost G4 u + calculate_distance G u v
        have hune : u ≠ nb := fun h => hnbcs (h ▸ hu)
        rw [hG4g_ne u hune]
        by_cases hvnb : v = nb
        · subst hvnb
          rw [hG4g_nb]
          exact le_trans (le_of_lt hguard) hb
        · rw [hG4g_ne v hvnb]
          exact hb
    · rcases hR.startMemMid with h | h | h
      · exact Or.inl ((hmemQ s).mpr h)
      · exact Or.inr (Or.inl h)
      · exact Or.inr (Or.inr h)
    · refine Or.inr ⟨(hmemQ nb).mpr hnbo, ?_⟩
      show gcost G4 nb ≤ gx + calculate_distance G x nb
      rw [hG4g_nb, hpg]
  · rw [if_neg h3]
    have hnbo : nb ∉ openIds S.open_set :=
      queue_query_eq_false.mp (by simpa using h3)
    have hmemQ : ∀ v : Nat,
        v ∈ openIds (queue_add S.open_set nb (fcost G4 nb)) ↔
          (v ∈ openIds S.open_set ∨ v = nb) := by
      intro v
      rw [openIds_queue_add]
      simp
    refine ⟨⟨hSE4, ?_, ?_, hR.validCs, hR.csNodup, ?_, hR.reachCs, ?_, hge4,
      hgU4, hfe4, ?_, ?_, ?_, hcsMin4, ?_, ?_, hsg4, hR.eNotCs, hR.foundFalse,
      hR.xReach, hR.xValid, hxg4, hR.xWalk, hR.xMin⟩, ?_⟩
    · show (openIds (queue_add S.open_set nb (fcost G4 nb))).Nodup
      rw [openIds_queue_add]
      simp [List.nodup_append, hR.nodup, hnbo]
    · intro v hv
      rcases (hmemQ v).mp hv with hv | hv
      · exact hR.validOpen v hv
      · exact hv ▸ hnbval
    · intro v hv
      rcases (hmemQ v).mp hv with hv | hv
      · exact hR.reachOpen v hv
      · exact hv ▸ hreach_nb
    · intro v hv
      show ∃ l, is_walk G s l v ∧ walk_weight G s l = gcost G4 v
      by_cases hvnb : v = nb
      · subst hvnb
        rw [hG4g_nb]
        exact hwalk_nb
      · rw [hG4g_ne v hvnb]
        apply hR.gWalk v
        rcases hv with hv | hv
        · rcases (hmemQ v).mp hv with hv | hv
          · exact Or.inl hv
          · exact absurd hv hvnb
        · exact Or.inr hv
    · intro hmem
      rcases (hmemQ e).mp hmem with hmem | hmem
      · exact hhe4 (Or.inl hmem)
      · exact hhe4 (Or.inr hmem)
    · intro h
      exact absurd (hR.foundFalse ▸ h) (by simp)
    · intro en hen
      rcases List.mem_append.mp hen with hold | hnew
      · have hne : en.1 ≠ nb := by
          intro h
          exact hnbo (h ▸ List.mem_map.mpr ⟨en, hold, rfl⟩)
        obtain ⟨p1, p2⟩ := hR.prio en hold
        refine ⟨?_, ?_⟩
        · show en.2 = fcost G4 en.1
          rw [hG4f_ne en.1 hne]
          exact p1
        · show fcost G4 en.1 = gcost G4 en.1 + calculate_distance G en.1 e
          rw [hG4f_ne en.1 hne, hG4g_ne en.1 hne]
          exact p2
      · rw [List.mem_singleton] at hnew
        subst hnew
        refine ⟨rfl, ?_⟩
        show fcost G4 nb = gcost G4 nb + calculate_distance G nb e
        rw [hG4f_nb, hG4g_nb]
    · intro u hu v hv
      rcases hR.frontierMid u hu v hv with h | h | ⟨hvo, hb⟩
      · exact Or.inl h
      · exact Or.inr (Or.inl h)
      · have hvnb : v ≠ nb := fun h => hnbo (h ▸ hvo)
        refine Or.inr (Or.inr ⟨(hmemQ v).mpr (Or.inl hvo), ?_⟩)
        show gcost G4 v ≤ gcost G4 u + calculate_distance G u v
        have hune : u ≠ nb := fun h => hnbcs (h ▸ hu)
        rw [hG4g_ne u hune, hG4g_ne v hvnb]
        exact hb
    · rcases hR.startMemMid with h | h | h
      · exact Or.inl ((hmemQ s).mpr (Or.inl h))
      · exact Or.inr (Or.inl h)
      · exact Or.inr (Or.inr h)
    · refine Or.inr ⟨(hmemQ nb).mpr (Or.inr rfl), ?_⟩
      show gcost G4 nb ≤ gx + calculate_distance G x nb
      rw [hG4g_nb, hpg]

/-! Clauses already established for processed neighbors survive the
relaxation of later neighbors. -/

theorem postclause_stable {G : graph_t} {s e x : Nat} {gx : Real}
    {S : AState} (hR : RInv G s e x gx S) {nb v : Nat}
    (hP : PostClause G x gx v S) :
    PostClause G x gx v (relax_neighbor e x S nb) := by
  rcases hP with hcs | ⟨hvo, hb⟩
  · exact Or.inl (by rw [relax_neighbor_cs]; exact hcs)
  simp only [relax_neighbor]
  by_cases h1 : queue_query S.open_set nb = true ∧
      gcost (set_h_cost S.g nb e) nb ≤
        calculate_g_cost (set_h_cost S.g nb e) x nb
  · rw [if_pos h1]
    refine Or.inr ⟨hvo, ?_⟩
    show gcost (set_h_cost S.g nb e) v ≤ gx + calculate_distance G x v
    rw [gcost_set_h_cost]
    exact hb
  rw [if_neg h1]
  by_cases h2 : set_query S.cs nb = true
  · rw [if_pos h2]
    refine Or.inr ⟨hvo, ?_⟩
    show gcost (set_h_cost S.g nb e) v ≤ gx + calculate_distance G x v
    rw [gcost_set_h_cost]
    exact hb
  rw [if_neg h2]
  set G1 := set_h_cost S.g nb e with hG1def
  set pg := calculate_g_cost G1 x nb with hpgdef
  set G4 := set_parent (set_f_cost (set_g_cost G1 nb pg) nb) nb x with hG4def
  have hG4g_ne : ∀ w, w ≠ nb → gcost G4 w = gcost S.g w := by
    intro w hw
    rw [hG4def, gcost_set_parent, gcost_set_f_cost, gcost_set_g_cost_ne hw,
      hG1def, gcost_set_h_cost]
  by_cases h3 : queue_query S.open_set nb = true
  · rw [if_pos h3]
    refine Or.inr ⟨?_, ?_⟩
    · show v ∈ openIds (queue_change_priority S.open_set nb (fcost G4 nb))
      rw [openIds_queue_change_priority]
      exact hvo
    · show gcost G4 v ≤ gx + calculate_distance G x v
      by_cases hvnb : v = nb
      · subst hvnb
        have hguard : pg < gcost S.g v := by
          by_contra hcon
          apply h1
          refine ⟨h3, ?_⟩
          show gcost G1 v ≤ pg
          rw [hG1def, gcost_set_h_cost]
          exact le_of_not_lt hcon
        have hvals : gcost G4 v = pg ∨ gcost G4 v = gcost S.g v := by
          rw [hG4def, gcost_set_parent, gcost_set_f_cost]
          rcases gcost_set_g_cost_of_ne_or (G := G1) (c := v) (v := v) pg
            with h | h
          · exact Or.inl h
          · right
            rw [h, hG1def, gcost_set_h_cost]
        rcases hvals with h | h
        · rw [h]
          exact le_trans (le_of_lt hguard) hb
        · rw [h]
          exact hb
      · rw [hG4g_ne v hvnb]
        exact hb
  · rw [if_neg h3]
    have hvnb : v ≠ nb := by
      intro h
      subst h
      exact (queue_query_eq_false.mp (by simpa using h3)) hvo
    refine Or.inr ⟨?_, ?_⟩
    · show v ∈ openIds (queue_add S.open_set nb (fcost G4 nb))
      rw [openIds_queue_add]
      exact List.mem_append.mpr (Or.inl hvo)
    · show gcost G4 v ≤ gx + calculate_distance G x v
      rw [hG4g_ne v hvnb]
      exact hb

theorem postclause_all_stable {G : graph_t} {s e x : Nat} {gx : Real} :
    ∀ (l : List Nat) (S : AState), RInv G s e x gx S → WF G →
      (∀ w ∈ l, w ∈ (nd G x).neighbors) → ∀ {v : Nat},
      PostClause G x gx v S → PostClause G x gx v (relax_all e x S l) := by
  intro l
  induction l with
  | nil =>
    intro S _ _ _ v hP
    exact hP
  | cons nb t ih =>
    intro S hR hWF hl v hP
    have hnb := hl nb (List.mem_cons_self ..)
    exact ih (relax_neighbor e x S nb) (rinv_relax_neighbor hR hWF hnb).1 hWF
      (fun w hw => hl w (List.mem_cons_of_mem _ hw)) (postclause_stable hR hP)

theorem relax_all_rinv {G : graph_t} {s e x : Nat} {gx : Real} :
    ∀ (l : List Nat) (S : AState), RInv G s e x gx S → WF G →
      (∀ w ∈ l, w ∈ (nd G x).neighbors) →
      RInv G s e x gx (relax_all e x S l) ∧
        ∀ v ∈ l, PostClause G x gx v (relax_all e x S l) := by
  intro l
  induction l with
  | nil =>
    intro S hR _ _
    exact ⟨hR, fun v hv => absurd hv (List.not_mem_nil v)⟩
  | cons nb t ih =>
    intro S hR hWF hl
    have hnb := hl nb (List.mem_cons_self ..)
    obtain ⟨hR1, hP1⟩ := rinv_relax_neighbor hR hWF hnb
    have htl : ∀ w ∈ t, w ∈ (nd G x).neighbors :=
      fun w hw => hl w (List.mem_cons_of_mem _ hw)
    obtain ⟨hR2, hP2⟩ := ih (relax_neighbor e x S nb) hR1 hWF htl
    refine ⟨hR2, ?_⟩
    intro v hv
    rcases List.mem_cons.mp hv with rfl | hv
    · exact postclause_all_stable t (relax_neighbor e x S v) hR1 hWF htl hP1
    · exact hP2 v hv

/-! One whole loop iteration preserves the invariant. -/

theorem inv_step {G : graph_t} {s e : Nat} {S : AState} (hI : Inv G s e S)
    (hWF : WF G) (hf : S.found = false) (hne : S.open_set ≠ []) :
    Inv G s e (a_star_step e S) := by
  unfold a_star_step
  set x := (queue_remove S.open_set).1 with hxdef
  set q' := (queue_remove S.open_set).2 with hqdef
  have hx_open : x ∈ openIds S.open_set := queue_remove_fst_mem hne
  have hxvalid : x < G.num_nodes := hI.validOpen x hx_open
  have hxreach : Reach G s x := hI.reachOpen x hx_open
  have hxwalk := hI.gWalk x (Or.inl hx_open)
  have hxmin : ∀ l, is_walk G s l x →
      gcost S.g x ≤ walk_weight G s l := by
    by_cases hxcs : x ∈ S.cs
    · exact hI.csMin x hxcs
    · exact extract_min_opt hI hf hne hxcs
  have hsubId : ∀ v, v ∈ openIds q' → v ∈ openIds S.open_set := by
    intro v hv
    exact openIds_queue_remove_subset hv
  have hsubEn : ∀ en : Nat × Real, en ∈ q' → en ∈ S.open_set := by
    intro en hen
    exact mem_of_mem_queue_remove hen
  set S1 := ({ S with open_set := q' } : AState) with hS1def
  have hR1 : RInv G s e x (gcost S.g x) S1 := by
    refine ⟨hI.structEq, ?_, ?_, hI.validCs, hI.csNodup, ?_, hI.reachCs, ?_,
      hI.geWalk, hI.gUnreached, hI.feEq, ?_, ?_, ?_, hI.csMin, ?_, ?_,
      hI.gsZero, hI.eNotCs, hf, hxreach, hxvalid, rfl, hxwalk, hxmin⟩
    · show (openIds q').Nodup
      rw [hqdef]
      exact openIds_queue_remove_nodup hI.nodup
    · exact fun v hv => hI.validOpen v (hsubId v hv)
    · exact fun v hv => hI.reachOpen v (hsubId v hv)
    · intro v hv
      exact hI.gWalk v (hv.imp (hsubId v) id)
    · exact fun hmem => hI.heOpen (hsubId e hmem)
    · intro h
      exact absurd (hf ▸ h) (by simp)
    · exact fun en hen => hI.prio en (hsubEn en hen)
    · intro u hu v hv
      rcases hI.frontier hf u hu v hv with hcs | ⟨hvo, hb⟩
      · exact Or.inl hcs
      · by_cases hvx : v = x
        · exact Or.inr (Or.inl hvx)
        · refine Or.inr (Or.inr ⟨?_, hb⟩)
          show v ∈ openIds q'
          rw [hqdef]
          exact openIds_mem_queue_remove_of_ne hvo hvx
    · rcases hI.startMem hf with hso | hsc
      · by_cases hsx : s = x
        · exact Or.inr (Or.inr hsx)
        · refine Or.inl ?_
          show s ∈ openIds q'
          rw [hqdef]
          exact openIds_mem_queue_remove_of_ne hso hsx
      · exact Or.inr (Or.inl hsc)
  by_cases hxe : x = e
  · rw [if_pos hxe]
    refine ⟨hI.structEq, ?_, ?_, hI.validCs, hI.csNodup, ?_, hI.reachCs, ?_,
      hI.geWalk, hI.gUnreached, hI.feEq, ?_, ?_, ?_, hI.csMin, ?_, ?_,
      hI.gsZero, hI.eNotCs, ?_⟩
    · show (openIds q').Nodup
      rw [hqdef]
      exact openIds_queue_remove_nodup hI.nodup
    · exact fun v hv => hI.validOpen v (hsubId v hv)
    · exact fun v hv => hI.reachOpen v (hsubId v hv)
    · intro v hv
      exact hI.gWalk v (hv.imp (hsubId v) id)
    · exact fun hmem => hI.heOpen (hsubId e hmem)
    · intro _
      exact hI.heOpen (hxe ▸ hx_open)
    · exact fun en hen => hI.prio en (hsubEn en hen)
    · intro h
      exact absurd h (by simp)
    · intro h
      exact absurd h (by simp)
    · intro _
      constructor
      · intro l hl
        show gcost S.g e ≤ walk_weight G s l
        rw [← hxe]
        exact hxmin l (by rwa [← hxe] at hl)
      · obtain ⟨l, hl, hw⟩ := hxwalk
        exact ⟨l, by rwa [hxe] at hl, by rw [hw, hxe]⟩
  · rw [if_neg hxe]
    rw [show (nd S.g x).neighbors = (nd G x).neighbors from
      neighbors_congr hI.structEq x]
    obtain ⟨hR2, hP2⟩ :=
      relax_all_rinv (nd G x).neighbors S1 hR1 hWF (fun w hw => hw)
    set S2 := relax_all e x S1 (nd G x).neighbors with hS2def
    have hfound2 : S2.found = false := by
      rw [hS2def, relax_all_found]
      exact hf
    refine ⟨hR2.structEq, hR2.nodup, hR2.validOpen, ?_, ?_, hR2.reachOpen,
      ?_, ?_, hR2.geWalk, hR2.gUnreached, hR2.feEq, hR2.heOpen, ?_,
      hR2.prio, ?_, ?_, ?_, hR2.gsZero, ?_, ?_⟩
    · intro v hv
      rcases mem_set_add.mp hv with rfl | hv
      · exact hxvalid
      · exact hR2.validCs v hv
    · exact set_add_nodup hR2.csNodup x
    · intro v hv
      rcases mem_set_add.mp hv with rfl | hv
      · exact hxreach
      · exact hR2.reachCs v hv
    · intro v hv
      rcases hv with hv | hv
      · exact hR2.gWalk v (Or.inl hv)
      · rcases mem_set_add.mp hv with rfl | hv
        · obtain ⟨l, hl, hw⟩ := hR2.xWalk
          exact ⟨l, hl, hw.trans hR2.xG.symm⟩
        · exact hR2.gWalk v (Or.inr hv)
    · intro h
      rw [show ({ S2 with cs := set_add S2.cs x } : AState).found = S2.found
        from rfl, hfound2] at h
      cases h
    · intro u hu l hl
      rcases mem_set_add.mp (show u ∈ set_add S2.cs x from hu) with rfl | hu2
      · show gcost S2.g x ≤ walk_weight G s l
        rw [hR2.xG]
        exact hxmin l hl
      · exact hR2.csMin u hu2 l hl
    · intro _ u hu v hv
      rcases mem_set_add.mp (show u ∈ set_add S2.cs x from hu) with rfl | hu2
      · rcases hP2 v hv with hvcs | ⟨hvo, hvb⟩
        · exact Or.inl (mem_set_add_of_mem x hvcs)
        · refine Or.inr ⟨hvo, ?_⟩
          show gcost S2.g v ≤ gcost S2.g x + calculate_distance G x v
          rw [hR2.xG]
          exact hvb
      · rcases hR2.frontierMid u hu2 v hv with hvcs | hvx | ⟨hvo, hvb⟩
        · exact Or.inl (mem_set_add_of_mem x hvcs)
        · exact Or.inl (hvx ▸ mem_set_add_self S2.cs x)
        · exact Or.inr ⟨hvo, hvb⟩
    · intro _
      rcases hR2.startMemMid with hso | hsc | hsx
      · exact Or.inl hso
      · exact Or.inr (mem_set_add_of_mem x hsc)
      · exact Or.inr (hsx ▸ mem_set_add_self S2.cs x)
    · intro h
      rcases mem_set_add.mp (show e ∈ set_add S2.cs x from h) with heq | h2
      · exact hxe heq.symm
      · exact hR2.eNotCs h2
    · intro h
      rw [show ({ S2 with cs := set_add S2.cs x } : AState).found = S2.found
        from rfl, hfound2] at h
      cases h

/-! The invariant holds at every loop boundary, and the loop terminates. -/

theorem inv_run {G : graph_t} {s e : Nat} (hWF : WF G) (hs : s < G.num_nodes)
    (hF : Fresh G) : ∀ k, Inv G s e (runState G s e k) := by
  intro k
  induction k with
  | zero => exact inv_init hWF hs hF
  | succ k ih =>
    rw [runState_succ]
    by_cases h : (runState G s e k).found = true ∨
        queue_is_empty (runState G s e k).open_set = true
    · rw [if_pos h]
      exact ih
    · rw [if_neg h]
      have hf : (runState G s e k).found = false := by
        cases hfv : (runState G s e k).found
        · rfl
        · exact absurd (Or.inl hfv) h
      have hne : (runState G s e k).open_set ≠ [] := by
        intro hq
        exact h (Or.inr (by rw [hq]; rfl))
      exact inv_step ih hWF hf hne

theorem length_le_of_nodup_lt {l : List Nat} {n : Nat} (hnd : l.Nodup)
    (hlt : ∀ v ∈ l, v < n) : l.length ≤ n := by
  have hsub : l.toFinset ⊆ Finset.range n := by
    intro v hv
    rw [Finset.mem_range]
    exact hlt v (List.mem_toFinset.mp hv)
  have := Finset.card_le_card hsub
  rwa [List.toFinset_card_of_nodup hnd, Finset.card_range] at this

theorem relax_neighbor_open_mono (e c : Nat) (S : AState) (nb : Nat) :
    ∀ v ∈ openIds S.open_set,
      v ∈ openIds (relax_neighbor e c S nb).open_set := by
  intro v hv
  rcases relax_neighbor_open_cases e c S nb with hc | ⟨p, hc⟩ | ⟨p, hc, -, -⟩
  · rw [hc]
    exact hv
  · rw [hc, openIds_queue_change_priority]
    exact hv
  · rw [hc, openIds_queue_add]
    exact List.mem_append.mpr (Or.inl hv)

theorem relax_neighbor_length {e c nb : Nat} {S : AState}
    (h : nb ∈ S.cs ∨ nb ∈ openIds S.open_set) :
    (relax_neighbor e c S nb).open_set.length = S.open_set.length := by
  simp only [relax_neighbor]
  by_cases h1 : queue_query S.open_set nb = true ∧
      gcost (set_h_cost S.g nb e) nb ≤
        calculate_g_cost (set_h_cost S.g nb e) c nb
  · rw [if_pos h1]
  rw [if_neg h1]
  by_cases h2 : set_query S.cs nb = true
  · rw [if_pos h2]
  rw [if_neg h2]
  have hnbo : nb ∈ openIds S.open_set := by
    rcases h with h | h
    · exact absurd (set_query_eq_true.mpr h) h2
    · exact h
  rw [if_pos (queue_query_eq_true.mpr hnbo)]
  show (queue_change_priority S.open_set nb _).length = _
  simp [queue_change_priority]

theorem relax_all_open_length {e c : Nat} :
    ∀ (l : List Nat) (S : AState),
      (∀ v ∈ l, v ∈ S.cs ∨ v ∈ openIds S.open_set) →
      (relax_all e c S l).open_set.length = S.open_set.length := by
  intro l
  induction l with
  | nil =>
    intro S _
    rfl
  | cons nb t ih =>
    intro S hl
    have h0 := hl nb (List.mem_cons_self ..)
    have hrec := ih (relax_neighbor e c S nb) ?_
    · show (relax_all e c (relax_neighbor e c S nb) t).open_set.length = _
      rw [hrec, relax_neighbor_length h0]
    · intro v hv
      rcases hl v (List.mem_cons_of_mem _ hv) with h | h
      · exact Or.inl (by rw [relax_neighbor_cs]; exact h)
      · exact Or.inr (relax_neighbor_open_mono e c S nb v h)

theorem openIds_length (q : queue_t) : (openIds q).length = q.length :=
  List.length_map ..

theorem queue_remove_length {q : queue_t} (hne : q ≠ []) :
    (queue_remove q).2.length = q.length - 1 := by
  match q with
  | [] => exact absurd rfl hne
  | x :: t =>
    show (List.eraseP (fun en => en.1 == (queue_min x t).1) (x :: t)).length = _
    have hmem : queue_min x t ∈ x :: t := by
      rcases queue_min_mem x t with h | h
      · rw [h]
        exact List.mem_cons_self ..
      · exact List.mem_cons_of_mem _ h
    exact List.length_eraseP_of_mem hmem (by simp)

theorem step_measure {G : graph_t} {s e : Nat} {S : AState} (hI : Inv G s e S)
    (hWF : WF G) (hf : S.found = false) (hne : S.open_set ≠ [])
    (hnf : (a_star_step e S).found = false) :
    loopMeasure G (a_star_step e S) < loopMeasure G S := by
  have hInext := inv_step hI hWF hf hne
  have honext : (openIds (a_star_step e S).open_set).length ≤ G.num_nodes :=
    length_le_of_nodup_lt hInext.nodup hInext.validOpen
  rw [openIds_length] at honext
  have hq1 : 1 ≤ S.open_set.length := by
    cases hq : S.open_set
    · exact absurd hq hne
    · simp [hq]
  set x := (queue_remove S.open_set).1 with hxdef
  set q' := (queue_remove S.open_set).2 with hqdef
  set S1 := ({ S with open_set := q' } : AState) with hS1def
  set L := (nd S.g x).neighbors with hLdef
  set S2 := relax_all e x S1 L with hS2def
  by_cases hxe : x = e
  · have hft : (a_star_step e S).found = true := by
      unfold a_star_step
      rw [← hxdef, if_pos hxe]
    rw [hft] at hnf
    cases hnf
  · have hstep_eq : a_star_step e S = { S2 with cs := set_add S2.cs x } := by
      unfold a_star_step
      rw [← hxdef, ← hqdef, ← hS1def, ← hLdef, if_neg hxe, ← hS2def]
    rw [hstep_eq] at honext ⊢
    have hcs2 : S2.cs = S.cs := by
      rw [hS2def]
      exact relax_all_cs ..
    have hq'len : q'.length = S.open_set.length - 1 := by
      rw [hqdef]
      exact queue_remove_length hne
    show (G.num_nodes - (set_add S2.cs x).length) * (G.num_nodes + 1) +
        S2.open_set.length <
      (G.num_nodes - S.cs.length) * (G.num_nodes + 1) + S.open_set.length
    have honext2 : S2.open_set.length ≤ G.num_nodes := honext
    by_cases hxcs : x ∈ S.cs
    · have h1 : (set_add S2.cs x).length = S.cs.length := by
        rw [show set_add S2.cs x = if x ∈ S2.cs then S2.cs else x :: S2.cs
          from rfl, if_pos (by rw [hcs2]; exact hxcs), hcs2]
      have h2 : S2.open_set.length = S.open_set.length - 1 := by
        rw [hS2def, relax_all_open_length L S1 ?_]
        · exact hq'len
        · intro v hv
          have hvG : v ∈ (nd G x).neighbors := by
            rw [hLdef] at hv
            rwa [neighbors_congr hI.structEq] at hv
          rcases hI.frontier hf x hxcs v hvG with h | ⟨ho, -⟩
          · exact Or.inl h
          · by_cases hvx : v = x
            · exact Or.inl (by rw [hvx]; exact hxcs)
            · refine Or.inr ?_
              show v ∈ openIds q'
              rw [hqdef]
              exact openIds_mem_queue_remove_of_ne ho hvx
      rw [h1, h2]
      generalize (G.num_nodes - S.cs.length) * (G.num_nodes + 1) = t
      omega
    · have h1 : (set_add S2.cs x).length = S.cs.length + 1 := by
        rw [show set_add S2.cs x = if x ∈ S2.cs then S2.cs else x :: S2.cs
          from rfl, if_neg (by rw [hcs2]; exact hxcs)]
        simp [hcs2]
      have hxval : x < G.num_nodes := by
        refine hI.validOpen x ?_
        rw [hxdef]
        exact queue_remove_fst_mem hne
      have hcslt : S.cs.length + 1 ≤ G.num_nodes := by
        have hnd : (x :: S.cs).Nodup := by
          rw [List.nodup_cons]
          exact ⟨hxcs, hI.csNodup⟩
        have hlt : ∀ v ∈ x :: S.cs, v < G.num_nodes := by
          intro v hv
          rcases List.mem_cons.mp hv with rfl | hv
          · exact hxval
          · exact hI.validCs v hv
        have := length_le_of_nodup_lt hnd hlt
        simpa using this
      rw [h1]
      have hsub : G.num_nodes - S.cs.length =
          (G.num_nodes - (S.cs.length + 1)) + 1 := by omega
      rw [hsub, Nat.succ_mul]
      generalize (G.num_nodes - (S.cs.length + 1)) * (G.num_nodes + 1) = t
      omega

theorem loop_reaches_terminal {G : graph_t} {s e : Nat} (hWF : WF G) :
    ∀ (fuel : Nat) (S : AState), Inv G s e S → loopMeasure G S < fuel →
      Terminal (a_star_loop e fuel S) := by
  intro fuel
  induction fuel with
  | zero =>
    intro S _ h
    cases h
  | succ fuel ih =>
    intro S hI hm
    rw [a_star_loop_succ]
    by_cases hT : S.found = true ∨ queue_is_empty S.open_set = true
    · rw [if_pos hT]
      exact (terminal_iff S).mpr hT
    · rw [if_neg hT]
      have hf : S.found = false := by
        cases hfv : S.found
        · rfl
        · exact absurd (Or.inl hfv) hT
      have hne : S.open_set ≠ [] := by
        intro hq
        exact hT (Or.inr (by rw [hq]; rfl))
      by_cases hfound : (a_star_step e S).found = true
      · rw [a_star_loop_terminal (Or.inl hfound)]
        exact Or.inl hfound
      · have hnf : (a_star_step e S).found = false := by
          cases hfv : (a_star_step e S).found
          · rfl
          · exact absurd hfv hfound
        apply ih (a_star_step e S) (inv_step hI hWF hf hne)
        have := step_measure hI hWF hf hne hnf
        omega

theorem run_terminal {G : graph_t} {s e : Nat} (hWF : WF G)
    (hs : s < G.num_nodes) (hF : Fresh G) :
    Terminal (a_star_run G s e) := by
  apply loop_reaches_terminal hWF _ _ (inv_init hWF hs hF)
  have hcs : (initState G s e).cs.length = 0 := by
    rw [initState_cs]
    rfl
  have hop : (initState G s e).open_set.length = 1 := by
    rw [initState_open_set]
    rfl
  show (G.num_nodes - (initState G s e).cs.length) * (G.num_nodes + 1) +
      (initState G s e).open_set.length < (G.num_nodes + 1) ^ 2
  rw [hcs, hop, Nat.sub_zero, pow_two]
  have h1 : 1 ≤ G.num_nodes := by omega
  have hexp : (G.num_nodes + 1) * (G.num_nodes + 1) =
      G.num_nodes * (G.num_nodes + 1) + (G.num_nodes + 1) := by ring
  rw [hexp]
  generalize G.num_nodes * (G.num_nodes + 1) = t
  omega

/-! Exhaustion closes the whole reachable set; a reachable goal is found. -/

theorem exhausted_closed {G : graph_t} {s e : Nat} {S : AState}
    (hI : Inv G s e S) (hf : S.found = false) (hemp : S.open_set = []) :
    ∀ (l : List Nat) (u tgt : Nat), is_walk G u l tgt → u ∈ S.cs →
      tgt ∈ S.cs := by
  intro l
  induction l with
  | nil =>
    intro u tgt hw hu
    exact (show u = tgt from hw) ▸ hu
  | cons v t ih =>
    intro u tgt hw hu
    obtain ⟨hv, hwt⟩ := hw
    rcases hI.frontier hf u hu v hv with hvc | ⟨hvo, -⟩
    · exact ih v tgt hwt hvc
    · rw [hemp] at hvo
      cases hvo

theorem run_inv {G : graph_t} {s e : Nat} (hWF : WF G) (hs : s < G.num_nodes)
    (hF : Fresh G) : Inv G s e (a_star_run G s e) := by
  rw [a_star_run_eq_runState]
  exact inv_run hWF hs hF _

theorem reachable_found {G : graph_t} {s e : Nat} (hWF : WF G)
    (hs : s < G.num_nodes) (hF : Fresh G) (hreach : Reach G s e) :
    (a_star_run G s e).found = true := by
  have hI := run_inv (e := e) hWF hs hF
  by_cases hfv : (a_star_run G s e).found = true
  · exact hfv
  · have hf : (a_star_run G s e).found = false := by
      cases h : (a_star_run G s e).found
      · rfl
      · exact absurd h hfv
    have hemp : (a_star_run G s e).open_set = [] :=
      (run_terminal hWF hs hF).resolve_left hfv
    have hscs : s ∈ (a_star_run G s e).cs := by
      rcases hI.startMem hf with h | h
      · rw [hemp] at h
        cases h
      · exact h
    obtain ⟨l, hl⟩ := hreach
    exact absurd (exhausted_closed hI hf hemp l s e hl hscs) hI.eNotCs

theorem a_star_optimal {G : graph_t} {s e : Nat} (hWF : WF G)
    (hs : s < G.num_nodes) (hF : Fresh G) (hreach : Reach G s e)
    (hpos : ∀ l, is_walk G s l e → 0 < walk_weight G s l) :
    (∃ l, is_walk G s l e ∧ walk_weight G s l = a_star G s e) ∧
      ∀ l, is_walk G s l e → a_star G s e ≤ walk_weight G s l := by
  have hfound := reachable_found hWF hs hF hreach
  have hI := run_inv (e := e) hWF hs hF
  obtain ⟨hmin, l0, hl0, hw0⟩ := hI.foundMin hfound
  have hgpos : 0 < gcost (a_star_run G s e).g e := by
    rw [← hw0]
    exact hpos l0 hl0
  have hval : a_star G s e = gcost (a_star_run G s e).g e := by
    unfold a_star
    rw [if_neg (ne_of_gt hgpos), hI.feEq]
  constructor
  · exact ⟨l0, hl0, by rw [hw0, hval]⟩
  · intro l hl
    rw [hval]
    exact hmin l hl

theorem walk_weight_ge_count {G : graph_t} {c : Real}
    (hedges : ∀ u v, v ∈ (nd G u).neighbors → c ≤ calculate_distance G u v) :
    ∀ (l : List Nat) (u tgt : Nat), is_walk G u l tgt →
      c * (l.length : Real) ≤ walk_weight G u l := by
  intro l
  induction l with
  | nil =>
    intro u tgt _
    simp [walk_weight]
  | cons v t ih =>
    intro u tgt hw
    obtain ⟨hv, hwt⟩ := hw
    have h1 := hedges u v hv
    have h2 := ih v tgt hwt
    rw [walk_weight_cons]
    have hlen : ((v :: t).length : Real) = (t.length : Real) + 1 := by
      simp
    rw [hlen]
    have : c * ((t.length : Real) + 1) = c + c * (t.length : Real) := by ring
    rw [this]
    exact add_le_add h1 h2

/-! Claims C1, C3, C5 and C9. -/

/-- Claim C1 (amended): for every well-formed graph built with fresh cost
state and every pair (start, goal) such that goal is reachable from start and
every walk from start to goal has positive weight (in particular start is
distinct from goal), a_star returns the length of a shortest path: its result
is the weight of an actual walk from start to goal, and no walk is shorter.
The original claim, quantifying over all reachable pairs, fails when the
shortest distance is 0 (for instance start = goal), where the g_cost==0
sentinel test returns -1 instead. -/
theorem C1_shortest_path (G : graph_t) (s e : Nat) (hWF : WF G)
    (hs : s < G.num_nodes) (he : e < G.num_nodes) (hF : Fresh G)
    (hreach : Reach G s e)
    (hpos : ∀ l, is_walk G s l e → 0 < walk_weight G s l) :
    (∃ l, is_walk G s l e ∧ walk_weight G s l = a_star G s e) ∧
      ∀ l, is_walk G s l e → a_star G s e ≤ walk_weight G s l :=
  a_star_optimal hWF hs hF hreach hpos

/-- Claim C1 counterexample: on the one-node graph the goal 0 is reachable
from the start 0 and the shortest path has length 0, yet a_star returns -1,
which is not the weight of any walk from 0 to 0. -/
theorem C1_counterexample :
    Reach exGraph1 0 0 ∧ a_star exGraph1 0 0 = -1 ∧
      ∀ l, is_walk exGraph1 0 l 0 →
        a_star exGraph1 0 0 ≠ walk_weight exGraph1 0 l := by
  have hz : gcost exGraph1 0 = 0 := rfl
  refine ⟨Reach.self _ 0, a_star_self hz, ?_⟩
  intro l hl
  rw [a_star_self hz]
  have := walk_weight_nonneg exGraph1 0 l
  intro h
  rw [← h] at this
  linarith

/-- Claim C3: with fresh cost state, an unreachable goal yields the sentinel
-1; when the loop breaks on the goal with a nonzero recorded g-cost the
result is that g-cost and is positive; and the result is literally decided by
the final g_cost(goal)==0 test. -/
theorem C3_unreachable_sentinel (G : graph_t) (s e : Nat) (hWF : WF G)
    (hs : s < G.num_nodes) (he : e < G.num_nodes) (hF : Fresh G) :
    (¬ Reach G s e → a_star G s e = -1) ∧
      ((a_star_run G s e).found = true → gcost (a_star_run G s e).g e ≠ 0 →
        0 < a_star G s e ∧ a_star G s e = gcost (a_star_run G s e).g e) ∧
      a_star G s e = (if gcost (a_star_run G s e).g e = 0 then -1
        else fcost (a_star_run G s e).g e) := by
  have hI := run_inv (e := e) hWF hs hF
  refine ⟨?_, ?_, rfl⟩
  · intro hun
    unfold a_star
    rw [if_pos (hI.gUnreached e hun)]
  · intro _ hne
    have hval : a_star G s e = gcost (a_star_run G s e).g e := by
      unfold a_star
      rw [if_neg hne, hI.feEq]
    obtain ⟨l, -, hw⟩ := hI.geWalk hne
    have hpos : 0 < gcost (a_star_run G s e).g e := by
      rcases lt_or_eq_of_le (hw ▸ walk_weight_nonneg G s l) with h | h
      · exact h
      · exact absurd h.symm hne
    exact ⟨hval ▸ hpos, hval⟩

/-- Claim C5 (amended): whenever the run ends in the FOUND state, the goal's
h-cost is 0 (it was computed as the distance from the goal to itself) and its
f-cost equals its g-cost; the returned value is that f-cost whenever the
goal's g-cost is nonzero, and the sentinel -1 otherwise (so a FOUND run whose
whole path has weight 0 does not return f_cost(goal), refuting the original
unconditional claim). -/
theorem C5_found_f_eq_g (G : graph_t) (s e : Nat) (hWF : WF G)
    (hs : s < G.num_nodes) (hF : Fresh G)
    (hfound : (a_star_run G s e).found = true) :
    (nd (a_star_run G s e).g e).h_cost = 0 ∧
      fcost (a_star_run G s e).g e = gcost (a_star_run G s e).g e ∧
      (gcost (a_star_run G s e).g e ≠ 0 →
        a_star G s e = fcost (a_star_run G s e).g e) ∧
      (gcost (a_star_run G s e).g e = 0 → a_star G s e = -1) := by
  have hI := run_inv (e := e) hWF hs hF
  refine ⟨hI.heFound hfound, hI.feEq, ?_, ?_⟩
  · intro h
    unfold a_star
    rw [if_neg h]
  · intro h
    unfold a_star
    rw [if_pos h]

/-- Claim C9: with fresh cost state and an unreachable goal, the closed set
at termination is exactly the set of nodes reachable from the start, which
for the symmetric graphs built by add_edge is the connected component of the
start. -/
theorem C9_closed_set_is_component (G : graph_t) (s e : Nat) (hWF : WF G)
    (hs : s < G.num_nodes) (he : e < G.num_nodes) (hF : Fresh G)
    (hsym : ∀ u v, v ∈ (nd G u).neighbors → u ∈ (nd G v).neighbors)
    (hunreach : ¬ Reach G s e) :
    ∀ v, v ∈ (a_star_run G s e).cs ↔ Reach G s v := by
  have hI := run_inv (e := e) hWF hs hF
  have hnf : (a_star_run G s e).found = false := by
    cases hfv : (a_star_run G s e).found
    · rfl
    · obtain ⟨-, l, hl, -⟩ := hI.foundMin hfv
      exact absurd ⟨l, hl⟩ hunreach
  have hemp : (a_star_run G s e).open_set = [] :=
    (run_terminal hWF hs hF).resolve_left (by rw [hnf]; simp)
  intro v
  constructor
  · exact fun hv => hI.reachCs v hv
  · rintro ⟨l, hl⟩
    have hscs : s ∈ (a_star_run G s e).cs := by
      rcases hI.startMem hnf with h | h
      · rw [hemp] at h
        cases h
      · exact h
    exact exhausted_closed hI hnf hemp l s v hl hscs

/-! Facts about the two-node distance-5 graph exGraph45. -/

theorem exGraph45_WF : WF exGraph45 := by
  refine ⟨rfl, ?_⟩
  intro i v hv
  show v < 2
  match i with
  | 0 =>
    have h : v ∈ [1] := hv
    simp at h
    omega
  | 1 =>
    have h : v ∈ [0] := hv
    simp at h
    omega
  | n + 2 =>
    have h : v ∈ ([] : List Nat) := hv
    cases h

theorem exGraph45_fresh : Fresh exGraph45 := by
  intro i
  match i with
  | 0 => exact ⟨rfl, rfl, rfl, rfl⟩
  | 1 => exact ⟨rfl, rfl, rfl, rfl⟩
  | n + 2 => exact ⟨rfl, rfl, rfl, rfl⟩

theorem exGraph45_dist01 : calculate_distance exGraph45 0 1 = 5 := by
  show Real.sqrt (((0 : Real) - 4) ^ 2 + ((0 : Real) - 3) ^ 2) = 5
  rw [show ((0 : Real) - 4) ^ 2 + ((0 : Real) - 3) ^ 2 = 5 ^ 2 by norm_num]
  exact Real.sqrt_sq (by norm_num)

theorem exGraph45_dist10 : calculate_distance exGraph45 1 0 = 5 := by
  show Real.sqrt (((4 : Real) - 0) ^ 2 + ((3 : Real) - 0) ^ 2) = 5
  rw [show ((4 : Real) - 0) ^ 2 + ((3 : Real) - 0) ^ 2 = 5 ^ 2 by norm_num]
  exact Real.sqrt_sq (by norm_num)

theorem exGraph45_edge_lb : ∀ u v, v ∈ (nd exGraph45 u).neighbors →
    5 ≤ calculate_distance exGraph45 u v := by
  intro u v hv
  match u with
  | 0 =>
    have h : v ∈ [1] := hv
    simp at h
    subst h
    rw [exGraph45_dist01]
  | 1 =>
    have h : v ∈ [0] := hv
    simp at h
    subst h
    rw [exGraph45_dist10]
  | n + 2 =>
    have h : v ∈ ([] : List Nat) := hv
    cases h

theorem exGraph45_is_walk1 : is_walk exGraph45 0 [1] 1 := by
  refine ⟨?_, rfl⟩
  show (1 : Nat) ∈ [1]
  simp

theorem exGraph45_reach : Reach exGraph45 0 1 := ⟨[1], exGraph45_is_walk1⟩

theorem exGraph45_w1 : walk_weight exGraph45 0 [1] = 5 := by
  rw [walk_weight_cons, exGraph45_dist01]
  show (5 : Real) + 0 = 5
  norm_num

theorem exGraph45_walk_lb : ∀ l, is_walk exGraph45 0 l 1 →
    5 ≤ walk_weight exGraph45 0 l := by
  intro l hl
  cases l with
  | nil => exact absurd ((by decide : (0 : Nat) ≠ 1) hl) id
  | cons v t =>
    have h5 := walk_weight_ge_count exGraph45_edge_lb (v :: t) 0 1 hl
    have h1 : 1 ≤ (v :: t).length := Nat.succ_le_succ (Nat.zero_le t.length)
    have hlen : (1 : Real) ≤ ((v :: t).length : Real) := by exact_mod_cast h1
    have h51 : (5 : Real) * 1 ≤ 5 * ((v :: t).length : Real) :=
      mul_le_mul_of_nonneg_left hlen (by norm_num)
    linarith

theorem exGraph45_pos : ∀ l, is_walk exGraph45 0 l 1 →
    0 < walk_weight exGraph45 0 l := by
  intro l hl
  have := exGraph45_walk_lb l hl
  linarith

/-- Witness for C1: on the two-node graph with one edge of Euclidean length
5, the search returns exactly 5. -/
theorem C1_shortest_path_witness : a_star exGraph45 0 1 = 5 := by
  obtain ⟨⟨l0, hl0, hw0⟩, hmin⟩ := C1_shortest_path exGraph45 0 1 exGraph45_WF
    (show (0 : Nat) < 2 by decide) (show (1 : Nat) < 2 by decide)
    exGraph45_fresh exGraph45_reach exGraph45_pos
  have hub : a_star exGraph45 0 1 ≤ 5 := by
    have h := hmin [1] exGraph45_is_walk1
    rwa [exGraph45_w1] at h
  have hlb : 5 ≤ a_star exGraph45 0 1 := by
    rw [← hw0]
    exact exGraph45_walk_lb l0 hl0
  linarith

/-! Facts about the three isolated nodes exGraph3 (the spec scenario for the
unreachable sentinel). -/

theorem exGraph3_nonbrs : ∀ i, (nd exGraph3 i).neighbors = [] := by
  intro i
  match i with
  | 0 => rfl
  | 1 => rfl
  | 2 => rfl
  | n + 3 => rfl

theorem exGraph3_WF : WF exGraph3 := by
  refine ⟨rfl, ?_⟩
  intro i v hv
  rw [exGraph3_nonbrs] at hv
  cases hv

theorem exGraph3_fresh : Fresh exGraph3 := by
  intro i
  match i with
  | 0 => exact ⟨rfl, rfl, rfl, rfl⟩
  | 1 => exact ⟨rfl, rfl, rfl, rfl⟩
  | 2 => exact ⟨rfl, rfl, rfl, rfl⟩
  | n + 3 => exact ⟨rfl, rfl, rfl, rfl⟩

theorem exGraph3_sym : ∀ u v, v ∈ (nd exGraph3 u).neighbors →
    u ∈ (nd exGraph3 v).neighbors := by
  intro u v hv
  rw [exGraph3_nonbrs] at hv
  cases hv

theorem exGraph3_unreach : ¬ Reach exGraph3 0 2 := by
  rintro ⟨l, hl⟩
  cases l with
  | nil => exact absurd ((by decide : (0 : Nat) ≠ 2) hl) id
  | cons v t =>
    have h : v ∈ (nd exGraph3 0).neighbors := hl.1
    rw [exGraph3_nonbrs] at h
    cases h

/-- Witness for C3: on the spec's three isolated nodes, searching from 0 to
the unreachable node 2 returns the sentinel -1. -/
theorem C3_unreachable_sentinel_witness : a_star exGraph3 0 2 = -1 :=
  (C3_unreachable_sentinel exGraph3 0 2 exGraph3_WF
    (show (0 : Nat) < 3 by decide) (show (2 : Nat) < 3 by decide)
    exGraph3_fresh).1 exGraph3_unreach

/-- Witness for C9: on the three isolated nodes, after the exhausted search
from 0 towards 2 the closed set membership of the start agrees with
reachability, and in particular the start itself was closed. -/
theorem C9_closed_set_is_component_witness :
    (0 ∈ (a_star_run exGraph3 0 2).cs ↔ Reach exGraph3 0 0) ∧
      0 ∈ (a_star_run exGraph3 0 2).cs := by
  have h := C9_closed_set_is_component exGraph3 0 2 exGraph3_WF
    (show (0 : Nat) < 3 by decide) (show (2 : Nat) < 3 by decide)
    exGraph3_fresh exGraph3_sym exGraph3_unreach
  exact ⟨h 0, (h 0).mpr (Reach.self _ 0)⟩

/-! Facts about the coincident-coordinates graph exGraph2z: two distinct
nodes at the same point joined by an edge of length 0. -/

theorem exGraph2z_WF : WF exGraph2z := by
  refine ⟨rfl, ?_⟩
  intro i v hv
  show v < 2
  match i with
  | 0 =>
    have h : v ∈ [1] := hv
    simp at h
    omega
  | 1 =>
    have h : v ∈ [0] := hv
    simp at h
    omega
  | n + 2 =>
    have h : v ∈ ([] : List Nat) := hv
    cases h

theorem exGraph2z_fresh : Fresh exGraph2z := by
  intro i
  match i with
  | 0 => exact ⟨rfl, rfl, rfl, rfl⟩
  | 1 => exact ⟨rfl, rfl, rfl, rfl⟩
  | n + 2 => exact ⟨rfl, rfl, rfl, rfl⟩

theorem exGraph2z_coords : ∀ i, (nd exGraph2z i).latitude = 0 ∧
    (nd exGraph2z i).longitude = 0 := by
  intro i
  match i with
  | 0 => exact ⟨rfl, rfl⟩
  | 1 => exact ⟨rfl, rfl⟩
  | n + 2 => exact ⟨rfl, rfl⟩

theorem exGraph2z_dist : ∀ i j, calculate_distance exGraph2z i j = 0 := by
  intro i j
  unfold calculate_distance
  rw [(exGraph2z_coords i).1, (exGraph2z_coords i).2,
    (exGraph2z_coords j).1, (exGraph2z_coords j).2]
  simp

theorem exGraph2z_wzero : ∀ (l : List Nat) (u : Nat),
    walk_weight exGraph2z u l = 0 := by
  intro l
  induction l with
  | nil => intro u; rfl
  | cons v t ih =>
    intro u
    rw [walk_weight_cons, exGraph2z_dist, ih, add_zero]

theorem exGraph2z_reach : Reach exGraph2z 0 1 := by
  refine ⟨[1], ?_, rfl⟩
  show (1 : Nat) ∈ [1]
  simp

theorem exGraph2z_found : (a_star_run exGraph2z 0 1).found = true :=
  reachable_found exGraph2z_WF (show (0 : Nat) < 2 by decide)
    exGraph2z_fresh exGraph2z_reach

theorem exGraph2z_g1 : gcost (a_star_run exGraph2z 0 1).g 1 = 0 := by
  by_cases h : gcost (a_star_run exGraph2z 0 1).g 1 = 0
  · exact h
  · obtain ⟨l, -, hw⟩ := (run_inv (e := 1) exGraph2z_WF
      (show (0 : Nat) < 2 by decide) exGraph2z_fresh).geWalk h
    rw [exGraph2z_wzero] at hw
    exact absurd hw.symm h

/-- Claim C5 counterexample: on two coincident nodes joined by a
length-0 edge, the run does end in the FOUND state, yet a_star returns the
sentinel -1 and not f_cost(goal), which is 0: the g_cost(goal)==0 test cannot
tell this FOUND run from an exhausted one. -/
theorem C5_counterexample :
    (a_star_run exGraph2z 0 1).found = true ∧
      fcost (a_star_run exGraph2z 0 1).g 1 = 0 ∧
      a_star exGraph2z 0 1 = -1 ∧
      a_star exGraph2z 0 1 ≠ fcost (a_star_run exGraph2z 0 1).g 1 := by
  have hI := run_inv (e := 1) exGraph2z_WF (show (0 : Nat) < 2 by decide)
    exGraph2z_fresh
  have hf : fcost (a_star_run exGraph2z 0 1).g 1 = 0 := by
    rw [hI.feEq]
    exact exGraph2z_g1
  have ha : a_star exGraph2z 0 1 = -1 := by
    unfold a_star
    rw [if_pos exGraph2z_g1]
  refine ⟨exGraph2z_found, hf, ha, ?_⟩
  rw [ha, hf]
  norm_num

/-- Witness for C5: the FOUND run on the coincident-coordinates graph has
h_cost(goal) = 0 and f_cost(goal) = g_cost(goal), and since that g-cost is 0
the returned value is the sentinel -1. -/
theorem C5_found_f_eq_g_witness :
    (nd (a_star_run exGraph2z 0 1).g 1).h_cost = 0 ∧
      fcost (a_star_run exGraph2z 0 1).g 1 = gcost (a_star_run exGraph2z 0 1).g 1 ∧
      a_star exGraph2z 0 1 = -1 := by
  have h := C5_found_f_eq_g exGraph2z 0 1 exGraph2z_WF
    (show (0 : Nat) < 2 by decide) exGraph2z_fresh exGraph2z_found
  exact ⟨h.1, h.2.1, h.2.2.2 exGraph2z_g1⟩

/-! Facts about the unit-square 4-cycle exGraph8. -/

theorem exGraph8_WF : WF exGraph8 := by
  refine ⟨rfl, ?_⟩
  intro i v hv
  show v < 4
  match i with
  | 0 =>
    have h : v ∈ [1, 3] := hv
    simp at h
    rcases h with rfl | rfl <;> omega
  | 1 =>
    have h : v ∈ [0, 2] := hv
    simp at h
    rcases h with rfl | rfl <;> omega
  | 2 =>
    have h : v ∈ [1, 3] := hv
    simp at h
    rcases h with rfl | rfl <;> omega
  | 3 =>
    have h : v ∈ [2, 0] := hv
    simp at h
    rcases h with rfl | rfl <;> omega
  | n + 4 =>
    have h : v ∈ ([] : List Nat) := hv
    cases h

theorem exGraph8_fresh : Fresh exGraph8 := by
  intro i
  match i with
  | 0 => exact ⟨rfl, rfl, rfl, rfl⟩
  | 1 => exact ⟨rfl, rfl, rfl, rfl⟩
  | 2 => exact ⟨rfl, rfl, rfl, rfl⟩
  | 3 => exact ⟨rfl, rfl, rfl, rfl⟩
  | n + 4 => exact ⟨rfl, rfl, rfl, rfl⟩

theorem exGraph8_d01 : calculate_distance exGraph8 0 1 = 1 := by
  show Real.sqrt (((0 : Real) - 0) ^ 2 + ((0 : Real) - 1) ^ 2) = 1
  rw [show ((0 : Real) - 0) ^ 2 + ((0 : Real) - 1) ^ 2 = 1 by norm_num]
  exact Real.sqrt_one

theorem exGraph8_d10 : calculate_distance exGraph8 1 0 = 1 := by
  show Real.sqrt (((0 : Real) - 0) ^ 2 + ((1 : Real) - 0) ^ 2) = 1
  rw [show ((0 : Real) - 0) ^ 2 + ((1 : Real) - 0) ^ 2 = 1 by norm_num]
  exact Real.sqrt_one

theorem exGraph8_d12 : calculate_distance exGraph8 1 2 = 1 := by
  show Real.sqrt (((0 : Real) - 1) ^ 2 + ((1 : Real) - 1) ^ 2) = 1
  rw [show ((0 : Real) - 1) ^ 2 + ((1 : Real) - 1) ^ 2 = 1 by norm_num]
  exact Real.sqrt_one

theorem exGraph8_d21 : calculate_distance exGraph8 2 1 = 1 := by
  show Real.sqrt (((1 : Real) - 0) ^ 2 + ((1 : Real) - 1) ^ 2) = 1
  rw [show ((1 : Real) - 0) ^ 2 + ((1 : Real) - 1) ^ 2 = 1 by norm_num]
  exact Real.sqrt_one

theorem exGraph8_d23 : calculate_distance exGraph8 2 3 = 1 := by
  show Real.sqrt (((1 : Real) - 1) ^ 2 + ((1 : Real) - 0) ^ 2) = 1
  rw [show ((1 : Real) - 1) ^ 2 + ((1 : Real) - 0) ^ 2 = 1 by norm_num]
  exact Real.sqrt_one

theorem exGraph8_d32 : calculate_distance exGraph8 3 2 = 1 := by
  show Real.sqrt (((1 : Real) - 1) ^ 2 + ((0 : Real) - 1) ^ 2) = 1
  rw [show ((1 : Real) - 1) ^ 2 + ((0 : Real) - 1) ^ 2 = 1 by norm_num]
  exact Real.sqrt_one

theorem exGraph8_d30 : calculate_distance exGraph8 3 0 = 1 := by
  show Real.sqrt (((1 : Real) - 0) ^ 2 + ((0 : Real) - 0) ^ 2) = 1
  rw [show ((1 : Real) - 0) ^ 2 + ((0 : Real) - 0) ^ 2 = 1 by norm_num]
  exact Real.sqrt_one

theorem exGraph8_d03 : calculate_distance exGraph8 0 3 = 1 := by
  show Real.sqrt (((0 : Real) - 1) ^ 2 + ((0 : Real) - 0) ^ 2) = 1
  rw [show ((0 : Real) - 1) ^ 2 + ((0 : Real) - 0) ^ 2 = 1 by norm_num]
  exact Real.sqrt_one

theorem exGraph8_edge_lb : ∀ u v, v ∈ (nd exGraph8 u).neighbors →
    1 ≤ calculate_distance exGraph8 u v := by
  intro u v hv
  match u with
  | 0 =>
    have h : v ∈ [1, 3] := hv
    simp at h
    rcases h with rfl | rfl
    · rw [exGraph8_d01]
    · rw [exGraph8_d03]
  | 1 =>
    have h : v ∈ [0, 2] := hv
    simp at h
    rcases h with rfl | rfl
    · rw [exGraph8_d10]
    · rw [exGraph8_d12]
  | 2 =>
    have h : v ∈ [1, 3] := hv
    simp at h
    rcases h with rfl | rfl
    · rw [exGraph8_d21]
    · rw [exGraph8_d23]
  | 3 =>
    have h : v ∈ [2, 0] := hv
    simp at h
    rcases h with rfl | rfl
    · rw [exGraph8_d32]
    · rw [exGraph8_d30]
  | n + 4 =>
    have h : v ∈ ([] : List Nat) := hv
    cases h

theorem exGraph8_is_walk12 : is_walk exGraph8 0 [1, 2] 2 := by
  refine ⟨?_, ?_, rfl⟩
  · show (1 : Nat) ∈ [1, 3]
    simp
  · show (2 : Nat) ∈ [0, 2]
    simp

theorem exGraph8_reach : Reach exGraph8 0 2 := ⟨[1, 2], exGraph8_is_walk12⟩

theorem exGraph8_w12 : walk_weight exGraph8 0 [1, 2] = 2 := by
  rw [walk_weight_cons, walk_weight_cons, exGraph8_d01, exGraph8_d12]
  show (1 : Real) + (1 + 0) = 2
  norm_num

theorem exGraph8_walk_lb : ∀ l, is_walk exGraph8 0 l 2 →
    2 ≤ walk_weight exGraph8 0 l := by
  intro l hl
  have hcount := walk_weight_ge_count exGraph8_edge_lb l 0 2 hl
  have hlen : 2 ≤ l.length := by
    match l, hl with
    | [], hl => exact absurd ((by decide : (0 : Nat) ≠ 2) hl) id
    | [v], hl =>
      obtain ⟨hv, hv2⟩ := hl
      have hveq : v = 2 := hv2
      subst hveq
      have h : (2 : Nat) ∈ [1, 3] := hv
      simp at h
    | v :: w :: t, _ =>
      show 2 ≤ t.length + 1 + 1
      omega
  have hlenr : (2 : Real) ≤ (l.length : Real) := by exact_mod_cast hlen
  have h1 : (1 : Real) * (l.length : Real) ≤ walk_weight exGraph8 0 l := hcount
  linarith

theorem exGraph8_pos : ∀ l, is_walk exGraph8 0 l 2 →
    0 < walk_weight exGraph8 0 l := by
  intro l hl
  have := exGraph8_walk_lb l hl
  linarith

/-- Claim C8: on the 4 nodes at (0,0), (1,0), (1,1), (0,1) joined in the
4-cycle 0-1, 1-2, 2-3, 3-0 with fresh cost state, a_star from node 0 to the
diagonally opposite node 2 returns exactly 2. -/
theorem C8_unit_square_returns_two : a_star exGraph8 0 2 = 2 := by
  obtain ⟨⟨l0, hl0, hw0⟩, hmin⟩ := a_star_optimal exGraph8_WF
    (show (0 : Nat) < 4 by decide) exGraph8_fresh exGraph8_reach exGraph8_pos
  have hub : a_star exGraph8 0 2 ≤ 2 := by
    have h := hmin [1, 2] exGraph8_is_walk12
    rwa [exGraph8_w12] at h
  have hlb : 2 ≤ a_star exGraph8 0 2 := by
    rw [← hw0]
    exact exGraph8_walk_lb l0 hl0
  linarith

/-! Termination bound under the absence of self-loops: whenever no node's
adjacency list mentions the node itself, an extracted node can never have been
re-inserted while closed, so the open and closed sets stay disjoint, every
non-break iteration closes a genuinely new node and the loop stops within
num_nodes iterations. -/

theorem relax_all_open_mem {e c : Nat} {S : AState} {l : List Nat} {v : Nat}
    (hv : v ∈ openIds (relax_all e c S l).open_set) :
    v ∈ openIds S.open_set ∨ (v ∈ l ∧ v ∉ S.cs) := by
  induction l generalizing S with
  | nil => exact Or.inl hv
  | cons nb t ih =>
    have hv2 : v ∈ openIds (relax_all e c (relax_neighbor e c S nb) t).open_set :=
      hv
    rcases ih hv2 with h | ⟨hmem, hcs⟩
    · rcases relax_neighbor_open_cases e c S nb with hc | ⟨p, hc⟩ | ⟨p, hc, -, hs⟩
      · rw [hc] at h
        exact Or.inl h
      · rw [hc, openIds_queue_change_priority] at h
        exact Or.inl h
      · rw [hc, openIds_queue_add] at h
        rcases List.mem_append.mp h with h | h
        · exact Or.inl h
        · have hvb : v = nb := by simpa using h
          subst hvb
          exact Or.inr ⟨List.mem_cons_self _ _, set_query_eq_false.mp hs⟩
    · rw [relax_neighbor_cs] at hcs
      exact Or.inr ⟨List.mem_cons_of_mem _ hmem, hcs⟩

theorem step_disj {G : graph_t} {s e : Nat} {S : AState}
    (hNSL : NoSelfLoop G) (hI : Inv G s e S)
    (hD : ∀ v ∈ openIds S.open_set, v ∉ S.cs) :
    ∀ v ∈ openIds (a_star_step e S).open_set, v ∉ (a_star_step e S).cs := by
  intro v hv
  set x := (queue_remove S.open_set).1 with hxdef
  set q' := (queue_remove S.open_set).2 with hqdef
  set S1 := ({ S with open_set := q' } : AState) with hS1def
  set L := (nd S.g x).neighbors with hLdef
  set S2 := relax_all e x S1 L with hS2def
  by_cases hxe : x = e
  · have hstep_eq : a_star_step e S =
        { S with open_set := q', found := true } := by
      unfold a_star_step
      rw [← hxdef, if_pos hxe, ← hqdef]
    rw [hstep_eq] at hv ⊢
    exact hD v (openIds_queue_remove_subset (hqdef ▸ hv))
  · have hstep_eq : a_star_step e S = { S2 with cs := set_add S2.cs x } := by
      unfold a_star_step
      rw [← hxdef, ← hqdef, ← hS1def, ← hLdef, if_neg hxe, ← hS2def]
    rw [hstep_eq] at hv ⊢
    intro hvcs
    have hvcs2 : v ∈ set_add S.cs x := by
      have h : v ∈ set_add S2.cs x := hvcs
      rwa [hS2def, relax_all_cs] at h
    have hv2 : v ∈ openIds S2.open_set := hv
    rw [hS2def] at hv2
    rcases relax_all_open_mem hv2 with h | ⟨hmem, hcs⟩
    · have hne : v ≠ x := by
        intro heq
        apply queue_remove_fst_not_mem hI.nodup
        rw [← hxdef, ← hqdef]
        rw [hS1def] at h
        exact heq ▸ h
      rcases mem_set_add.mp hvcs2 with heq | hmemcs
      · exact hne heq
      · have hvS : v ∈ openIds S.open_set := by
          apply openIds_queue_remove_subset
          rw [← hqdef]
          rw [hS1def] at h
          exact h
        exact hD v hvS hmemcs
    · rw [hLdef] at hmem
      have hnb : v ∈ (nd G x).neighbors := by
        rw [← (hI.structEq.2.2 x).2.2]
        exact hmem
      rcases mem_set_add.mp hvcs2 with heq | hmemcs
      · exact hNSL x (heq ▸ hnb)
      · rw [hS1def] at hcs
        exact hcs hmemcs

theorem runState_disj {G : graph_t} {s e : Nat} (hNSL : NoSelfLoop G)
    (hWF : WF G) (hs : s < G.num_nodes) (hF : Fresh G) :
    ∀ k, ∀ v ∈ openIds (runState G s e k).open_set, v ∉ (runState G s e k).cs := by
  intro k
  induction k with
  | zero =>
    intro v _ hvcs
    exact absurd (show v ∈ ([] : List Nat) from hvcs) (by simp)
  | succ k ih =>
    rw [runState_succ]
    by_cases h : (runState G s e k).found = true ∨
        queue_is_empty (runState G s e k).open_set = true
    · rw [if_pos h]
      exact ih
    · rw [if_neg h]
      exact step_disj hNSL (inv_run hWF hs hF k) ih

theorem nonterminal_cs_count {G : graph_t} {s e : Nat} (hNSL : NoSelfLoop G)
    (hWF : WF G) (hs : s < G.num_nodes) (hF : Fresh G) :
    ∀ k, ¬ Terminal (runState G s e k) → k ≤ (runState G s e k).cs.length := by
  intro k
  induction k with
  | zero =>
    intro _
    exact Nat.zero_le _
  | succ k ih =>
    intro hnt
    have hntk : ¬ Terminal (runState G s e k) := by
      intro hT
      apply hnt
      show Terminal (runState G s e (k + 1))
      rw [runState_succ, if_pos ((terminal_iff _).mp hT)]
      exact hT
    have hguard : ¬ ((runState G s e k).found = true ∨
        queue_is_empty (runState G s e k).open_set = true) := by
      intro h
      exact hntk ((terminal_iff _).mpr h)
    have hstep : runState G s e (k + 1) = a_star_step e (runState G s e k) := by
      rw [runState_succ, if_neg hguard]
    have hf1 : (runState G s e (k + 1)).found = false := by
      cases hfv : (runState G s e (k + 1)).found
      · rfl
      · exact absurd (Or.inl hfv) hnt
    set x := (queue_remove (runState G s e k).open_set).1 with hxdef
    have hxe : x ≠ e := by
      intro heq
      have hft : (runState G s e (k + 1)).found = true := by
        rw [hstep]
        unfold a_star_step
        rw [← hxdef, if_pos heq]
      rw [hft] at hf1
      cases hf1
    have hcs : (runState G s e (k + 1)).cs =
        set_add (runState G s e k).cs x := by
      rw [hstep]
      unfold a_star_step
      rw [← hxdef, if_neg hxe]
      show (set_add (relax_all e x
        { runState G s e k with
            open_set := (queue_remove (runState G s e k).open_set).2 }
        (nd (runState G s e k).g x).neighbors).cs x) = _
      rw [relax_all_cs]
    have hne : (runState G s e k).open_set ≠ [] := by
      intro h
      apply hguard
      right
      rw [h]
      rfl
    have hxmem : x ∈ openIds (runState G s e k).open_set :=
      queue_remove_fst_mem hne
    have hxnotcs : x ∉ (runState G s e k).cs :=
      runState_disj hNSL hWF hs hF k x hxmem
    have hlen : (set_add (runState G s e k).cs x).length =
        (runState G s e k).cs.length + 1 := length_set_add_of_not_mem hxnotcs
    have hk := ih hntk
    rw [hcs, hlen]
    omega

/-- Claim C10 (amended): on every finite well-formed graph in which no
adjacency list mentions its own node, the while loop reaches a terminal state
(goal dequeued or open set empty) within num_nodes iterations, i.e. the
number of extractions is bounded by the number of nodes.  Self-loops, which
add_edge happily creates, break the bound — see the counterexample — because
a node can be re-inserted into the open set while being closed, so the open
and closed sets no longer stay disjoint. -/
theorem C10_termination_bound (G : graph_t) (s e : Nat) (hWF : WF G)
    (hNSL : NoSelfLoop G) (hs : s < G.num_nodes) (he : e < G.num_nodes)
    (hF : Fresh G) :
    Terminal (runState G s e G.num_nodes) := by
  by_contra hnt
  have hk := nonterminal_cs_count hNSL hWF hs hF G.num_nodes hnt
  have hI := inv_run (e := e) hWF hs hF G.num_nodes
  have hlen : (e :: (runState G s e G.num_nodes).cs).length ≤ G.num_nodes := by
    apply length_le_of_nodup_lt
    · exact List.nodup_cons.mpr ⟨hI.eNotCs, hI.csNodup⟩
    · intro v hv
      rcases List.mem_cons.mp hv with rfl | hv
      · exact he
      · exact hI.validCs v hv
  have hlen2 : (runState G s e G.num_nodes).cs.length + 1 ≤ G.num_nodes := hlen
  omega

theorem exGraphLoop_WF : WF exGraphLoop := by
  refine ⟨rfl, ?_⟩
  intro i v hv
  show v < 3
  match i with
  | 0 =>
    have h : v ∈ [0, 0, 1] := hv
    simp at h
    rcases h with rfl | rfl <;> omega
  | 1 =>
    have h : v ∈ [0, 2] := hv
    simp at h
    rcases h with rfl | rfl <;> omega
  | 2 =>
    have h : v ∈ [1] := hv
    simp at h
    omega
  | n + 3 =>
    have h : v ∈ ([] : List Nat) := hv
    cases h

theorem sqrt25 : Real.sqrt 25 = 5 := by
  rw [show (25 : Real) = 5 ^ 2 by norm_num]
  exact Real.sqrt_sq (by norm_num)

theorem sqrt36 : Real.sqrt 36 = 6 := by
  rw [show (36 : Real) = 6 ^ 2 by norm_num]
  exact Real.sqrt_sq (by norm_num)

theorem exGraphLoop_run3 : (runState exGraphLoop 0 2 3).found = false ∧
    (runState exGraphLoop 0 2 3).open_set ≠ [] := by
  rw [show (3 : Nat) = 0 + 1 + 1 + 1 from rfl, runState_succ, runState_succ,
    runState_succ, runState_zero]
  norm_num [initState, a_star_step, relax_all, relax_neighbor, queue_remove,
    queue_min, queue_add, queue_query, queue_is_empty, queue_change_priority,
    set_add, set_query, set_create, queue_create, set_h_cost, set_f_cost,
    set_g_cost, set_parent, setNd, nd, fcost, gcost, calculate_g_cost,
    calculate_distance, exGraphLoop, add_edge, node_create, graph_create,
    insert, Real.sqrt_zero, sqrt25, sqrt36, List.getD_cons_zero,
    List.getD_cons_succ]

/-- Claim C10 counterexample: in the three-node triangle graph in which
add_edge gave node 0 a self-loop, the graph is well formed (every stored
neighbor id is a valid node), yet after num_nodes = 3 loop iterations the
search from 0 to 2 is still running — the goal was not dequeued and the open
set is nonempty — so the loop performs a fourth extraction and the claimed
bound of one extraction per node fails: node 0 is re-inserted into the open
set during its own relaxation and extracted a second time. -/
theorem C10_counterexample :
    WF exGraphLoop ∧ exGraphLoop.num_nodes = 3 ∧
      ¬ Terminal (runState exGraphLoop 0 2 3) := by
  refine ⟨exGraphLoop_WF, rfl, ?_⟩
  rintro (h | h)
  · rw [exGraphLoop_run3.1] at h
    cases h
  · exact exGraphLoop_run3.2 h

theorem exGraph45_NSL : NoSelfLoop exGraph45 := by
  intro i
  match i with
  | 0 =>
    show (0 : Nat) ∉ [1]
    simp
  | 1 =>
    show (1 : Nat) ∉ [0]
    simp
  | n + 2 =>
    show n + 2 ∉ ([] : List Nat)
    simp

/-- Witness for C10: on the self-loop-free two-node graph the loop is
terminal after num_nodes iterations. -/
theorem C10_termination_bound_witness :
    Terminal (runState exGraph45 0 1 exGraph45.num_nodes) :=
  C10_termination_bound exGraph45 0 1 exGraph45_WF exGraph45_NSL
    (show (0 : Nat) < 2 by decide) (show (1 : Nat) < 2 by decide)
    exGraph45_fresh

/-- Claim C4 counterexample: for the pair (0, 0) of valid node ids — the
claim quantifies over every pair — add_edge appends node 0 twice to its own
neighbor list, not exactly once. -/
theorem C4_counterexample :
    (nd (add_edge exGraph1 0 0) 0).neighbors = [0, 0] ∧
      (nd (add_edge exGraph1 0 0) 0).neighbors ≠
        (nd exGraph1 0).neighbors ++ [0] := by
  refine ⟨rfl, ?_⟩
  intro h
  have h2 : ([0, 0] : List Nat) = [0] := h
  simp at h2

end AStar
